import Mathlib

/-!
Verification development for the PharmaForm HPRA XML-to-JSON converter
(`hpra_parser`).  The Python modules `converter.py`, `cli.py` and
`quality_report.py` are shallowly embedded below: Python values that the
converter manipulates (`None`, `str`, `dict`, `list`) become the inductive
type `JValue`; Python dicts become insertion-ordered association lists with
`dinsert` modelling `d[k] = v`; XML elements become the inductive `Element`.
All definitions are executable.
-/

set_option maxHeartbeats 1000000
set_option linter.unusedVariables false

namespace PharmaForm

/-- JSON-like values handled by the converter: Python `None`, `str`,
`dict` (insertion-ordered association list, as Python 3.7+ dicts) and
`list`. -/
inductive JValue where
  | null : JValue
  | str (s : String) : JValue
  | obj (entries : List (String × JValue)) : JValue
  | arr (elems : List JValue) : JValue
deriving BEq, Repr

mutual

/-- Decidable equality on `JValue` (written out by hand: automatic
derivation does not handle the nested lists). -/
def decEqJValue : (a b : JValue) → Decidable (a = b)
  | .null, .null => .isTrue rfl
  | .null, .str _ => .isFalse (fun h => JValue.noConfusion h)
  | .null, .obj _ => .isFalse (fun h => JValue.noConfusion h)
  | .null, .arr _ => .isFalse (fun h => JValue.noConfusion h)
  | .str _, .null => .isFalse (fun h => JValue.noConfusion h)
  | .str s, .str t =>
    match decEq s t with
    | .isTrue h => .isTrue (by rw [h])
    | .isFalse h => .isFalse (fun hh => h (JValue.str.inj hh))
  | .str _, .obj _ => .isFalse (fun h => JValue.noConfusion h)
  | .str _, .arr _ => .isFalse (fun h => JValue.noConfusion h)
  | .obj _, .null => .isFalse (fun h => JValue.noConfusion h)
  | .obj _, .str _ => .isFalse (fun h => JValue.noConfusion h)
  | .obj e1, .obj e2 =>
    match decEqEntries e1 e2 with
    | .isTrue h => .isTrue (by rw [h])
    | .isFalse h => .isFalse (fun hh => h (JValue.obj.inj hh))
  | .obj _, .arr _ => .isFalse (fun h => JValue.noConfusion h)
  | .arr _, .null => .isFalse (fun h => JValue.noConfusion h)
  | .arr _, .str _ => .isFalse (fun h => JValue.noConfusion h)
  | .arr _, .obj _ => .isFalse (fun h => JValue.noConfusion h)
  | .arr l1, .arr l2 =>
    match decEqElems l1 l2 with
    | .isTrue h => .isTrue (by rw [h])
    | .isFalse h => .isFalse (fun hh => h (JValue.arr.inj hh))
termination_by structural a => a

def decEqEntries : (a b : List (String × JValue)) → Decidable (a = b)
  | [], [] => .isTrue rfl
  | [], _ :: _ => .isFalse (fun h => List.noConfusion h)
  | _ :: _, [] => .isFalse (fun h => List.noConfusion h)
  | (k1, v1) :: r1, (k2, v2) :: r2 =>
    match decEq k1 k2 with
    | .isFalse h => .isFalse (fun hh => by cases hh; exact h rfl)
    | .isTrue hk =>
      match decEqJValue v1 v2 with
      | .isFalse h => .isFalse (fun hh => by cases hh; exact h rfl)
      | .isTrue hv =>
        match decEqEntries r1 r2 with
        | .isFalse h => .isFalse (fun hh => by cases hh; exact h rfl)
        | .isTrue hr => .isTrue (by rw [hk, hv, hr])
termination_by structural a => a

def decEqElems : (a b : List JValue) → Decidable (a = b)
  | [], [] => .isTrue rfl
  | [], _ :: _ => .isFalse (fun h => List.noConfusion h)
  | _ :: _, [] => .isFalse (fun h => List.noConfusion h)
  | v1 :: r1, v2 :: r2 =>
    match decEqJValue v1 v2 with
    | .isFalse h => .isFalse (fun hh => by cases hh; exact h rfl)
    | .isTrue hv =>
      match decEqElems r1 r2 with
      | .isFalse h => .isFalse (fun hh => by cases hh; exact h rfl)
      | .isTrue hr => .isTrue (by rw [hv, hr])
termination_by structural a => a

end

instance : DecidableEq JValue := decEqJValue

/-- An ASCII whitespace character, as stripped by Python's `str.strip`. -/
def isSpace (c : Char) : Bool :=
  c == ' ' || c == '\t' || c == '\n' || c == '\r'

/-- Strip leading and trailing whitespace from a character list. -/
def trimChars (l : List Char) : List Char :=
  ((l.dropWhile isSpace).reverse.dropWhile isSpace).reverse

/-- Python's `text.strip()` (restricted to ASCII whitespace). -/
def pyStrip (s : String) : String :=
  String.mk (trimChars s.data)

/-- Python dict assignment `d[k] = v`: if the key is present the value is
replaced in place (keeping the key's position), otherwise the pair is
appended at the end. -/
def dinsert {α : Type} (d : List (String × α)) (k : String) (v : α) : List (String × α) :=
  if d.any (fun p => p.1 == k) then d.map (fun p => if p.1 == k then (k, v) else p)
  else d ++ [(k, v)]

/-- Python dict lookup `d.get(k)`: value of the first (hence unique, for a
real dict) entry with the given key. -/
def dget {α : Type} (d : List (String × α)) (k : String) : Option α :=
  (d.find? (fun p => p.1 == k)).map Prod.snd

/-- Python `k in d`. -/
def hasKey {α : Type} (d : List (String × α)) (k : String) : Bool :=
  d.any (fun p => p.1 == k)

/-- Sequence of Python dict assignments `d[k] = v`, one per listed pair:
models `d.update(pairs)` and dict comprehensions. -/
def dupdate {α : Type} (d : List (String × α)) (pairs : List (String × α)) :
    List (String × α) :=
  pairs.foldl (fun acc p => dinsert acc p.1 p.2) d

/-- Python dict built from a sequence of key/value pairs (dict
comprehension): fold of `dinsert` starting from the empty dict. -/
def dictOf {α : Type} (pairs : List (String × α)) : List (String × α) :=
  dupdate [] pairs

/-- Check that a key list has no duplicates, as the keys of a Python dict
never do. -/
def keysNodup {α : Type} : List (String × α) → Bool
  | [] => true
  | p :: rest => !(rest.any (fun q => q.1 == p.1)) && keysNodup rest

/-- An XML element as exposed by `xml.etree.ElementTree`: tag, attribute
pairs in document order, text content (the source's `node.text or ""`),
and child elements in document order. -/
inductive Element where
  | mk (tag : String) (attrib : List (String × String)) (text : String)
       (children : List Element) : Element

def Element.tag : Element → String
  | .mk t _ _ _ => t

def Element.attrib : Element → List (String × String)
  | .mk _ a _ _ => a

def Element.text : Element → String
  | .mk _ _ x _ => x

def Element.children : Element → List Element
  | .mk _ _ _ c => c

/-- The character `\x7b` (opening brace), written via its code point so it
can be used in strings describing namespaced tags. -/
def lbrace : Char := Char.ofNat 123

/-- The character `\x7d` (closing brace). -/
def rbrace : Char := Char.ofNat 125

/-- Split a character list at the first occurrence of `c`:
`some (before, after)` when `c` occurs, `none` otherwise.  Models Python's
`s.split(c, 1)` (which yields a two-element list exactly when `c`
occurs). -/
def splitAtFirst (c : Char) : List Char → Option (List Char × List Char)
  | [] => none
  | x :: xs =>
    if x = c then some ([], xs)
    else (splitAtFirst c xs).map (fun p => (x :: p.1, p.2))

/-- Port of `converter.strip_namespace`.  `tag.split(CLOSE, 1)[1]` raises
`IndexError` when the tag starts with an opening brace but contains no
closing brace; that failure is modelled as `none`. -/
def strip_namespace (tag : String) : Option String :=
  if tag.data.head? = some lbrace then
    (splitAtFirst rbrace tag.data).map (fun p => String.mk p.2)
  else some tag

/-- Total variant of `strip_namespace` used inside the element
normalizer: it agrees with `strip_namespace` wherever the source function
returns (see `strip_namespace_eq_stripLocal`); on a malformed tag — where
the source raises `IndexError` — it returns the tag unchanged, and all
theorems about the normalizer therefore carry a `tagsOk` hypothesis
restricting them to the domain on which the source terminates
normally. -/
def stripLocal (tag : String) : String :=
  (strip_namespace tag).getD tag

/-- A tag on which `strip_namespace` does not raise. -/
def tagOk (tag : String) : Bool :=
  (strip_namespace tag).isSome

/-- All tags and attribute names in an element tree are `tagOk`: the
domain on which the source normalizer runs without an `IndexError`. -/
def tagsOk : Element → Bool
  | .mk tag attrib _ children =>
    tagOk tag && attrib.all (fun p => tagOk p.1) && tagsOkList children
where
  tagsOkList : List Element → Bool
    | [] => true
    | c :: rest => tagsOk c && tagsOkList rest

/-- The `attributes` sub-dict built by `etree_to_dict`:
`{strip_namespace(key): value for key, value in node.attrib.items()}`. -/
def attrEntries (attrib : List (String × String)) : List (String × JValue) :=
  dictOf (attrib.map (fun p => (stripLocal p.1, JValue.str p.2)))

/-- One step of the source's `grouped_children.setdefault(key, []).append(value)`:
append `v` to the group of key `k`, creating the group at the end on first
occurrence. -/
def addToGroup (g : List (String × List JValue)) (k : String) (v : JValue) :
    List (String × List JValue) :=
  if g.any (fun p => p.1 == k) then
    g.map (fun p => if p.1 == k then (p.1, p.2 ++ [v]) else p)
  else g ++ [(k, [v])]

/-- The source's child-grouping loop over the already-normalized
`(local name, value)` pairs of the children: pairs whose value is `None`
are skipped (`continue`), the rest are appended to their name's group. -/
def groupPairs (pairs : List (String × JValue)) : List (String × List JValue) :=
  pairs.foldl
    (fun g p => match p.2 with
      | .null => g
      | v => addToGroup g p.1 v) []

/-- The source's `result[key] = values[0] if len(values) == 1 else values`
applied to every group. -/
def storeGroups (g : List (String × List JValue)) : List (String × JValue) :=
  g.map (fun p =>
    (p.1, match p.2 with
          | [v] => v
          | vs => JValue.arr vs))

/-- The accumulator dict of `etree_to_dict` after the `attributes` entry
and the grouped children have been stored (source lines 41-56): starts
from `{"attributes": ...}` when attributes exist and then performs one
dict assignment per group. -/
def buildCore (attrib : List (String × String)) (pairs : List (String × JValue)) :
    List (String × JValue) :=
  let r0 : List (String × JValue) :=
    if attrib.isEmpty then [] else [("attributes", JValue.obj (attrEntries attrib))]
  dupdate r0 (storeGroups (groupPairs pairs))

/-- The tail of `etree_to_dict` (source lines 64-72): empty dict falls
back to `text or None` (the caller passes the appropriate fallback);
a singleton dict without `attributes` and `value` keys whose sole key
equals the node's local name collapses to the sole value; otherwise the
dict itself is returned. -/
def finalize (tagL : String) (r : List (String × JValue)) (fallback : JValue) : JValue :=
  if r.isEmpty then fallback
  else if !hasKey r "attributes" && !hasKey r "value" && r.length == 1 then
    match r with
    | (k, v) :: _ => if k = tagL then v else JValue.obj r
    | _ => JValue.obj r
  else JValue.obj r

mutual

/-- Port of `converter.etree_to_dict` (restricted, via the `tagsOk`
hypotheses of the theorems below, to elements on which the source does
not raise).  `JValue.null` models the Python `None` returned for an
information-free element. -/
def etree_to_dict : Element → JValue
  | .mk tag attrib text children =>
    let t := pyStrip text
    if children.isEmpty && attrib.isEmpty then
      (if t = "" then JValue.null else JValue.str t)
    else
      let r1 := buildCore attrib (childPairsList children)
      if t = "" then finalize (stripLocal tag) r1 JValue.null
      else if r1.isEmpty then JValue.str t
      else finalize (stripLocal tag) (dinsert r1 "value" (JValue.str t)) (JValue.str t)
termination_by structural e => e

/-- The `(strip_namespace(child.tag), etree_to_dict(child))` pairs of the
child loop, in document order. -/
def childPairsList : List Element → List (String × JValue)
  | [] => []
  | c :: rest => (stripLocal c.tag, etree_to_dict c) :: childPairsList rest
termination_by structural l => l

end

/-- Children of an element, normalized: local name paired with recursively
normalized value, in document order. -/
def childPairs (e : Element) : List (String × JValue) :=
  childPairsList e.children

/-- The dict `etree_to_dict` has accumulated just before its final
`if not result` / collapse checks (the source's `result` at line 64), for
an element that builds a dict at all; `[]` for a leaf element that never
builds one. -/
def builtMap : Element → List (String × JValue)
  | .mk _ attrib text children =>
    if children.isEmpty && attrib.isEmpty then []
    else
      let r1 := buildCore attrib (childPairsList children)
      if pyStrip text = "" || r1.isEmpty then r1
      else dinsert r1 "value" (JValue.str (pyStrip text))

/-- Keys of surviving children in first-occurrence order (specification
side of claim C1): fold keeping only the first occurrence of each name. -/
def firstKeys (ks : List String) : List String :=
  ks.foldl (fun acc k => if k ∈ acc then acc else acc ++ [k]) []

/-- Children that survive normalization: pairs whose normalized value is
not Absent (specification side of claim C1). -/
def survivors (pairs : List (String × JValue)) : List (String × JValue) :=
  pairs.filter (fun p => !decide (p.2 = JValue.null))

/-- Specification-side grouping, written from the spec's words: group the
surviving children by local name, names in first-occurrence order, values
in document order within a name; a name with exactly one surviving child
stores that child's value directly, more than one stores the List of all
surviving values. -/
def groupSpec (pairs : List (String × JValue)) : List (String × JValue) :=
  (firstKeys ((survivors pairs).map Prod.fst)).map (fun k =>
    (k, match ((survivors pairs).filter (fun p => p.1 == k)).map Prod.snd with
        | [v] => v
        | vs => JValue.arr vs))

/-- Groups of surviving children as a key-to-collected-values table, the
specification-side counterpart of the fold of `addToGroup`. -/
def specGroups (qs : List (String × JValue)) : List (String × List JValue) :=
  (firstKeys (qs.map Prod.fst)).map
    (fun k => (k, (qs.filter (fun p => p.1 == k)).map Prod.snd))

/-- Join a map key onto the running flatten prefix:
`f"{parent_key}.{key}" if parent_key else key`. -/
def joinKey (parentKey key : String) : String :=
  if parentKey = "" then key else parentKey ++ "." ++ key

/-- Decimal digit expansion with an explicit recursion bound (the bound
only needs to dominate the number of digits, and `n` itself does). -/
def natDigitsGo : Nat → Nat → List Char
  | 0, _ => []
  | fuel + 1, n =>
    if n < 10 then [Char.ofNat (48 + n)]
    else natDigitsGo fuel (n / 10) ++ [Char.ofNat (48 + n % 10)]

/-- Decimal digits of a natural number, most significant first. -/
def natDigits (n : Nat) : List Char :=
  natDigitsGo (n + 1) n

/-- Decimal rendering of a natural number, modelling Python's
`f"{index}"`. -/
def natStr (n : Nat) : String :=
  String.mk (natDigits n)

/-- Positional key of a list element:
`f"{parent_key}[{index}]"` (also the root branch `f"[{index}]"`, where
`parent_key` is empty). -/
def idxKey (parentKey : String) (i : Nat) : String :=
  parentKey ++ "[" ++ natStr i ++ "]"

/-- Python's `not isinstance(item, (dict, list))`. -/
def isScalar : JValue → Bool
  | .obj _ => false
  | .arr _ => false
  | _ => true

/-- The `attributes` key prefix of `flatten_dict`:
`f"{parent_key}.attributes" if parent_key else "attributes"`. -/
def attrPrefix (parentKey : String) : String :=
  if parentKey = "" then "attributes" else parentKey ++ "." ++ "attributes"

mutual

/-- Port of `converter.flatten_dict` (the separator argument is always the
default `"."` in the source and is inlined).  Dicts are traversed entry by
entry, an `attributes` entry whose value is a dict is emitted terminally
under `<prefix>.attributes.<name>`, other entries recurse with the joined
key; lists are stored whole when all elements are scalars under a
non-empty prefix and are otherwise exploded positionally; scalars are
stored under the prefix when it is non-empty. -/
def flatten_dict : JValue → String → List (String × JValue)
  | .null, parentKey => if parentKey = "" then [] else [(parentKey, JValue.null)]
  | .str s, parentKey => if parentKey = "" then [] else [(parentKey, JValue.str s)]
  | .obj entries, parentKey => flattenObj entries parentKey []
  | .arr elems, parentKey =>
    if parentKey = "" then flattenArr elems 0 parentKey []
    else if elems.all isScalar then [(parentKey, JValue.arr elems)]
    else flattenArr elems 0 parentKey []
termination_by structural v _ => v

/-- The dict loop of `flatten_dict`, threading the `items` accumulator. -/
def flattenObj : List (String × JValue) → String → List (String × JValue) →
    List (String × JValue)
  | [], _, items => items
  | (k, v) :: rest, parentKey, items =>
    match v, k == "attributes" with
    | .obj attrs, true =>
      flattenObj rest parentKey
        (dupdate items (attrs.map (fun q => (attrPrefix parentKey ++ "." ++ q.1, q.2))))
    | v, _ =>
      flattenObj rest parentKey (dupdate items (flatten_dict v (joinKey parentKey k)))
termination_by structural l _ _ => l

/-- The list loop of `flatten_dict`, threading the index and the `items`
accumulator. -/
def flattenArr : List JValue → Nat → String → List (String × JValue) →
    List (String × JValue)
  | [], _, _, items => items
  | x :: rest, i, parentKey, items =>
    flattenArr rest (i + 1) parentKey (dupdate items (flatten_dict x (idxKey parentKey i)))
termination_by structural l _ _ _ => l

end

mutual

/-- Emission sequence of `flatten_dict`: the same traversal, but recording
every single dict assignment `items[key] = val` as one appended pair, in
order, without the overwriting a Python dict performs on a repeated key.
`flatten_dict` equals the dict built from this sequence, and the
no-collision claim C4 is the statement that the keys of this sequence are
pairwise distinct. -/
def flattenPairs : JValue → String → List (String × JValue)
  | .null, parentKey => if parentKey = "" then [] else [(parentKey, JValue.null)]
  | .str s, parentKey => if parentKey = "" then [] else [(parentKey, JValue.str s)]
  | .obj entries, parentKey => flattenPairsObj entries parentKey
  | .arr elems, parentKey =>
    if parentKey = "" then flattenPairsArr elems 0 parentKey
    else if elems.all isScalar then [(parentKey, JValue.arr elems)]
    else flattenPairsArr elems 0 parentKey
termination_by structural v _ => v

def flattenPairsObj : List (String × JValue) → String → List (String × JValue)
  | [], _ => []
  | (k, v) :: rest, parentKey =>
    match v, k == "attributes" with
    | .obj attrs, true =>
      (attrs.map (fun q => (attrPrefix parentKey ++ "." ++ q.1, q.2)))
        ++ flattenPairsObj rest parentKey
    | v, _ =>
      flattenPairs v (joinKey parentKey k) ++ flattenPairsObj rest parentKey
termination_by structural l _ => l

def flattenPairsArr : List JValue → Nat → String → List (String × JValue)
  | [], _, _ => []
  | x :: rest, i, parentKey =>
    flattenPairs x (idxKey parentKey i) ++ flattenPairsArr rest (i + 1) parentKey
termination_by structural l _ _ => l

end

/-- Result type of `flatten_data`: either a list of per-product flat
records or a single flat record for the whole document. -/
inductive FlattenResult where
  | recs (rs : List (List (String × JValue))) : FlattenResult
  | single (r : List (String × JValue)) : FlattenResult
deriving BEq, DecidableEq, Repr

/-- The item list of the repeated-entity container, as the source builds
it: a list is used as is, `None` becomes the empty list, any other value
becomes a one-element list. -/
def productItems (praw : JValue) : List JValue :=
  match praw with
  | .arr l => l
  | .null => []
  | v => [v]

/-- Broadcast of the container-level attributes into one flattened record:
`flattened[f"Products.attributes.{attr_key}"] = attr_val` for every
attribute pair. -/
def broadcastAttrs (rootAttrs : Option JValue) (flattened : List (String × JValue)) :
    List (String × JValue) :=
  match rootAttrs with
  | some (.obj attrs) =>
    dupdate flattened (attrs.map (fun q => ("Products.attributes." ++ q.1, q.2)))
  | _ => flattened

/-- Port of `converter.flatten_data`. -/
def flatten_data (data : List (String × JValue)) : FlattenResult :=
  match dget data "Products" with
  | some (.obj ps) =>
    if hasKey ps "Product" then
      let praw := (dget ps "Product").getD (JValue.arr [])
      let items := productItems praw
      let rootAttrs := dget ps "attributes"
      .recs (items.map (fun item => broadcastAttrs rootAttrs (flatten_dict item "")))
    else .single (flatten_dict (JValue.obj data) "")
  | _ => .single (flatten_dict (JValue.obj data) "")

/-- The repeated-entity shape test of `flatten_data`: the root map holds a
`Products` dict that itself has a `Product` key. -/
def repeatedShape (data : List (String × JValue)) : Option (List (String × JValue)) :=
  match dget data "Products" with
  | some (.obj ps) => if hasKey ps "Product" then some ps else none
  | _ => none

/-- Container-level attributes of the `Products` section, when its
`attributes` key holds a dict. -/
def containerAttrs (ps : List (String × JValue)) : List (String × JValue) :=
  match dget ps "attributes" with
  | some (.obj attrs) => attrs
  | _ => []

/-- Port of the `ConversionResult` dataclass. -/
structure ConversionResult where
  success : Bool
  records_processed : Nat
  warning_message : Option String
  error_message : Option String
  input_sha256 : Option String
  output_sha256 : Option String
deriving BEq, DecidableEq, Repr

/-- Exceptions distinguished by `convert_xml_to_json`'s handlers:
`ET.ParseError` and every other `Exception`. -/
inductive PyExc where
  | parseErr (msg : String)
  | otherErr (msg : String)
deriving BEq, DecidableEq, Repr

/-- Effectful collaborators of one `convert_xml_to_json` call, each step
either yielding its value or raising: the input-file hash, the XML parse
(`parse_xml`, whose result is the root dict), the output write, and the
output-file hash. -/
structure ConvEnv where
  calcChecksums : Bool
  flatten : Bool
  inputHash : Except PyExc String
  parsed : Except PyExc (List (String × JValue))
  writeOk : Except PyExc Unit
  outputHash : Except PyExc String

/-- Record counting of the nested (non-flatten) branch of
`convert_xml_to_json`. -/
def nestedCount (data : List (String × JValue)) : Nat :=
  match (dget data "Products").getD (JValue.obj []) with
  | .obj ps =>
    match (dget ps "Product").getD (JValue.arr []) with
    | .arr l => l.length
    | .null => 0
    | _ => 1
  | _ => 0

/-- Record counting of the flatten branch of `convert_xml_to_json`. -/
def flatCount : FlattenResult → Nat
  | .recs rs => rs.length
  | .single _ => 1

/-- The `ConversionResult` built by the two `except` handlers. -/
def failureResult (msg : String) : ConversionResult :=
  { success := false, records_processed := 0, warning_message := none,
    error_message := some msg, input_sha256 := none, output_sha256 := none }

/-- Port of `converter.convert_xml_to_json`: the `try` block threads the
four effectful steps, computes the record count (flattened or nested) and
the zero-record warning; `except ET.ParseError` and `except Exception`
each map to a failure result carrying the corresponding message. -/
def convert_xml_to_json (env : ConvEnv) : ConversionResult :=
  let attempt : Except PyExc ConversionResult := do
    let ih ← if env.calcChecksums then some <$> env.inputHash else pure none
    let data ← env.parsed
    let rc := if env.flatten then flatCount (flatten_data data) else nestedCount data
    let _ ← env.writeOk
    let oh ← if env.calcChecksums then some <$> env.outputHash else pure none
    let warning := if rc = 0 then some "No products found in XML file" else none
    pure { success := true, records_processed := rc, warning_message := warning,
           error_message := none, input_sha256 := ih, output_sha256 := oh }
  match attempt with
  | .ok r => r
  | .error (.parseErr m) => failureResult ("XML parse error: " ++ m)
  | .error (.otherErr m) => failureResult ("Unexpected error: " ++ m)

/-- The error of one step, if it raised. -/
def stepErr {α : Type} : Except PyExc α → Option PyExc
  | .error e => some e
  | .ok _ => none

/-- The first exception raised inside `convert_xml_to_json`'s `try`
block, if any, in step order. -/
def firstExc (env : ConvEnv) : Option PyExc :=
  (if env.calcChecksums then stepErr env.inputHash else none) <|>
    stepErr env.parsed <|> stepErr env.writeOk <|>
    (if env.calcChecksums then stepErr env.outputHash else none)

/-- Status string the CLI records for one conversion result
(`cli.run`, success/warning/failure dispatch). -/
def statusOfResult (cr : ConversionResult) : String :=
  if cr.success then (if cr.warning_message.isSome then "warning" else "success")
  else "failure"

/-- What happened to one target file in the CLI loop: the file vanished
before processing (recorded as skipped), `convert_xml_to_json` returned a
result, or the call itself raised (recorded as failure). -/
inductive FileOutcome where
  | missing : FileOutcome
  | conv (cr : ConversionResult) : FileOutcome
  | raised (msg : String) : FileOutcome

/-- Status string recorded in the batch metrics for one outcome. -/
def statusOfOutcome : FileOutcome → String
  | .missing => "skipped"
  | .conv cr => statusOfResult cr
  | .raised _ => "failure"

/-- Port of `BatchMetrics.total_failures`: number of results whose status
is `failure`. -/
def total_failures (outcomes : List FileOutcome) : Nat :=
  (outcomes.filter (fun o => statusOfOutcome o == "failure")).length

/-- Exit-code skeleton of `cli.run`: a run that finds no XML files
returns 1 immediately; otherwise every target is processed, the per-file
statuses are accumulated, and the exit code is 0 exactly when the
aggregate failure count is zero. -/
def run (outcomes : List FileOutcome) : Nat :=
  if outcomes.isEmpty then 1
  else if total_failures outcomes = 0 then 0 else 1

/-- Record count `convert_xml_to_json` computes once parsing succeeded
(flattened or nested branch). -/
def convRecords (env : ConvEnv) : Nat :=
  match env.parsed with
  | .ok d => if env.flatten then flatCount (flatten_data d) else nestedCount d
  | .error _ => 0

/-- Top-level shape invariant claimed for `etree_to_dict` results (claim
C10): a returned Map is never empty and a returned Scalar is never the
empty string. -/
def NoEmptyTop : JValue → Prop
  | .obj m => m ≠ []
  | .str s => s ≠ ""
  | _ => True

/-- The collapse condition of `etree_to_dict` (source line 67-69) on the
built dict: no `attributes` key, no `value` key, exactly one entry, and
that entry's key equals the node's local name. -/
def collapseCond (tagL : String) (r : List (String × JValue)) : Prop :=
  hasKey r "attributes" = false ∧ hasKey r "value" = false ∧ r.length = 1 ∧
    r.head?.map Prod.fst = some tagL

/-- Value of the sole entry of a singleton dict. -/
def soleVal (r : List (String × JValue)) : JValue :=
  match r with
  | (_, v) :: _ => v
  | _ => JValue.null

/-- A value a flat record may hold: a scalar, or a list all of whose
elements are scalars. -/
def scalarish : JValue → Bool
  | .null => true
  | .str _ => true
  | .arr l => l.all isScalar
  | .obj _ => false

/-- A record that is already flat (claim C7): a map — duplicate-free,
path-valued (non-empty) keys — whose values are scalars or scalar
lists. -/
def isFlatRecord (r : List (String × JValue)) : Bool :=
  keysNodup r && r.all (fun p => !(p.1 == "") && scalarish p.2)

/-- Separator characters of flattened keys. -/
def dotChar : Char := '.'

/-- Opening bracket of positional keys. -/
def lbk : Char := '['

/-- Closing bracket of positional keys. -/
def rbk : Char := ']'

/-- A map key that cannot be confused with the flattener's path syntax:
non-empty and free of the separator characters. -/
def cleanKey (k : String) : Bool :=
  !(k == "") && k.data.all (fun c => !(c == dotChar) && !(c == lbk) && !(c == rbk))

mutual

/-- Well-formedness of a normalized tree for the no-collision invariant
(claim C4): throughout the tree, sibling map keys are duplicate-free and
clean; an `attributes` entry holding a dict (whose pairs are emitted
terminally by the flattener) only needs duplicate-free names. -/
def validTree : JValue → Bool
  | .null => true
  | .str _ => true
  | .obj entries => keysNodup entries && validEntries entries
  | .arr elems => validElems elems

def validEntries : List (String × JValue) → Bool
  | [] => true
  | (k, v) :: rest =>
    cleanKey k &&
    (match v, k == "attributes" with
     | .obj attrs, true => keysNodup attrs
     | v, _ => validTree v) &&
    validEntries rest

def validElems : List JValue → Bool
  | [] => true
  | x :: rest => validTree x && validElems rest

end

/-- Validity of one dict entry (the per-entry conjunct of
`validEntries`): duplicate-free names for a terminal `attributes` dict,
recursive tree validity otherwise. -/
def entryValid (p : String × JValue) : Bool :=
  match p.2, p.1 == "attributes" with
  | .obj attrs, true => keysNodup attrs
  | v, _ => validTree v

/-- Decimal value of a digit list (inverse of `natDigits`, used to prove
the digit rendering injective). -/
def natVal (l : List Char) : Nat :=
  l.foldl (fun a c => 10 * a + (c.toNat - 48)) 0

/-- A flattened-key suffix as produced below a prefix: either empty (the
prefix itself is the key) or opening with a separator (a dot for a map
step, an opening bracket for a list index). -/
def SufOkL (s : List Char) : Prop :=
  s = [] ∨ s.head? = some dotChar ∨ s.head? = some lbk

/-- The pairs one dict entry contributes to the emission sequence of the
flattener: terminal attribute pairs for an `attributes` entry holding a
dict, the recursive emission otherwise. -/
def entryPairs (parentKey : String) (p : String × JValue) : List (String × JValue) :=
  match p.2, p.1 == "attributes" with
  | .obj attrs, true => attrs.map (fun q => (attrPrefix parentKey ++ "." ++ q.1, q.2))
  | v, _ => flattenPairs v (joinKey parentKey p.1)

/-- Element exhibiting the empty-built-map case: both pieces of content
normalize to Absent, so the built dict stays empty and `etree_to_dict`
returns Absent instead of the dict (claim C2's counterexample input). -/
def eNoInfo : Element :=
  Element.mk "a" [] "" [Element.mk "b" [] "" []]

/-- Tree exhibiting a flattened-key collision: the leaf paths
`a → b` and `a.b` (a dotted tag name, legal in XML) both flatten to the
key `a.b` (claim C4's counterexample input). -/
def vDot : JValue :=
  JValue.obj [("a", JValue.obj [("b", JValue.str "1")]), ("a.b", JValue.str "2")]

/-!  ## Theorems

Generic association-list ("Python dict") lemmas first, then the claims.
-/

theorem hasKey_eq_false_iff {α : Type} {d : List (String × α)} {k : String} :
    hasKey d k = false ↔ ∀ p ∈ d, p.1 ≠ k := by
  simp [hasKey]

theorem hasKey_append {α : Type} (d e : List (String × α)) (k : String) :
    hasKey (d ++ e) k = (hasKey d k || hasKey e k) := by
  simp [hasKey, List.any_append]

theorem dinsert_of_hasKey_false {α : Type} {d : List (String × α)} {k : String} (v : α)
    (h : hasKey d k = false) : dinsert d k v = d ++ [(k, v)] := by
  unfold dinsert
  rw [show (d.any fun p => p.1 == k) = false from h]
  simp

theorem mem_dinsert {α : Type} {d : List (String × α)} {k : String} {v : α} {p : String × α}
    (hp : p ∈ dinsert d k v) : p ∈ d ∨ p = (k, v) := by
  unfold dinsert at hp
  split at hp
  · obtain ⟨q, hq, hfq⟩ := List.mem_map.mp hp
    by_cases hk : q.1 == k
    · right; rw [if_pos hk] at hfq; exact hfq.symm
    · left; rw [if_neg hk] at hfq; exact hfq ▸ hq
  · rcases List.mem_append.mp hp with h | h
    · exact Or.inl h
    · right; simpa using h

theorem dget_map_update {α : Type} {d : List (String × α)} {k : String} (v : α)
    (h : hasKey d k = true) :
    dget (d.map (fun p => if p.1 == k then (k, v) else p)) k = some v := by
  induction d with
  | nil => simp [hasKey] at h
  | cons q rest ih =>
    by_cases hq : q.1 == k
    · simp [dget, List.find?, hq]
    · have h' : hasKey rest k = true := by
        simp only [hasKey, List.any_cons, hq, Bool.false_or] at h
        exact h
      have := ih h'
      simpa [dget, List.find?, hq] using this

theorem dget_map_update_ne {α : Type} {d : List (String × α)} {k k' : String} (v : α)
    (hne : k' ≠ k) :
    dget (d.map (fun p => if p.1 == k then (k, v) else p)) k' = dget d k' := by
  induction d with
  | nil => rfl
  | cons q rest ih =>
    by_cases hq : q.1 == k
    · have hq1 : q.1 = k := by simpa using hq
      have hkk : (k == k') = false := by
        simp only [beq_eq_false_iff_ne]
        exact fun hh => hne hh.symm
      have hqk : (q.1 == k') = false := by rw [hq1]; exact hkk
      simpa [dget, List.find?, hq, hkk, hqk] using ih
    · by_cases hq' : q.1 == k'
      · simp [dget, List.find?, hq, hq']
      · simpa [dget, List.find?, hq, hq'] using ih

theorem dget_dinsert_self {α : Type} (d : List (String × α)) (k : String) (v : α) :
    dget (dinsert d k v) k = some v := by
  unfold dinsert
  split
  · exact dget_map_update v (by assumption)
  · rename_i hfalse
    have hnone : d.find? (fun p => p.1 == k) = none := by
      refine List.find?_eq_none.mpr (fun p hp hpk => ?_)
      exact hfalse (List.any_eq_true.mpr ⟨p, hp, hpk⟩)
    simp [dget, List.find?_append, hnone, List.find?]

theorem dget_dinsert_ne {α : Type} {d : List (String × α)} {k k' : String} (v : α)
    (hne : k' ≠ k) : dget (dinsert d k v) k' = dget d k' := by
  unfold dinsert
  split
  · exact dget_map_update_ne v hne
  · have hkk : (k == k') = false := by
      simp only [beq_eq_false_iff_ne]
      exact fun hh => hne hh.symm
    cases hf : d.find? (fun p => p.1 == k') with
    | some a => simp [dget, List.find?_append, hf]
    | none => simp [dget, List.find?_append, hf, List.find?, hkk]

theorem hasKey_of_dget_some {α : Type} {d : List (String × α)} {k : String} {v : α}
    (h : dget d k = some v) : hasKey d k = true := by
  unfold dget at h
  cases hf : d.find? (fun p => p.1 == k) with
  | none => rw [hf] at h; cases h
  | some a =>
    have hmem := List.mem_of_find?_eq_some hf
    have hpa : (a.1 == k) = true := by
      have := List.find?_some hf
      simpa using this
    exact List.any_eq_true.mpr ⟨a, hmem, hpa⟩

theorem hasKey_dinsert_self {α : Type} (d : List (String × α)) (k : String) (v : α) :
    hasKey (dinsert d k v) k = true :=
  hasKey_of_dget_some (dget_dinsert_self d k v)

theorem dget_dupdate_ne {α : Type} {d ps : List (String × α)} {k : String}
    (h : ∀ q ∈ ps, q.1 ≠ k) : dget (dupdate d ps) k = dget d k := by
  induction ps generalizing d with
  | nil => rfl
  | cons q ps ih =>
    show dget (dupdate (dinsert d q.1 q.2) ps) k = dget d k
    rw [ih (fun a ha => h a (List.mem_cons_of_mem _ ha))]
    exact dget_dinsert_ne _ (fun hh => h q (List.mem_cons_self _ _) hh.symm)

theorem keysNodup_cons {α : Type} {p : String × α} {ps : List (String × α)} :
    keysNodup (p :: ps) = true ↔ (∀ q ∈ ps, q.1 ≠ p.1) ∧ keysNodup ps = true := by
  simp [keysNodup]

theorem dupdate_eq_append {α : Type} {d ps : List (String × α)}
    (hfresh : ∀ q ∈ ps, hasKey d q.1 = false) (hnd : keysNodup ps = true) :
    dupdate d ps = d ++ ps := by
  induction ps generalizing d with
  | nil => simp [dupdate]
  | cons p ps ih =>
    obtain ⟨hp, hnd'⟩ := keysNodup_cons.mp hnd
    show dupdate (dinsert d p.1 p.2) ps = d ++ p :: ps
    rw [dinsert_of_hasKey_false _ (hfresh p (List.mem_cons_self _ _))]
    rw [@ih (d ++ [p]) ?_ hnd']
    · simp
    · intro q hq
      rw [hasKey_append]
      have h1 : hasKey d q.1 = false := hfresh q (List.mem_cons_of_mem _ hq)
      have h2 : hasKey [p] q.1 = false := by
        simp [hasKey]
        exact fun hh => hp q hq hh.symm
      simp [h1, h2]

theorem dictOf_self {α : Type} {r : List (String × α)} (h : keysNodup r = true) :
    dictOf r = r := by
  have := @dupdate_eq_append α ([] : List (String × α)) r
    (fun q _ => by simp [hasKey]) h
  simpa [dictOf] using this

theorem mem_dupdate {α : Type} {d ps : List (String × α)} {p : String × α}
    (hp : p ∈ dupdate d ps) : p ∈ d ∨ p ∈ ps := by
  induction ps generalizing d with
  | nil => exact Or.inl hp
  | cons q ps ih =>
    rcases @ih (dinsert d q.1 q.2) hp with h | h
    · rcases mem_dinsert h with h' | h'
      · exact Or.inl h'
      · right
        have : (q.1, q.2) = q := rfl
        rw [this] at h'
        exact h' ▸ List.mem_cons_self _ _
    · exact Or.inr (List.mem_cons_of_mem _ h)

theorem dinsert_ne_nil {α : Type} (d : List (String × α)) (k : String) (v : α) :
    dinsert d k v ≠ [] := by
  unfold dinsert
  split
  · rename_i hany
    intro h
    rw [List.map_eq_nil_iff] at h
    subst h
    simp at hany
  · simp

theorem string_append_cancel_left {s a b : String} (h : s ++ a = s ++ b) : a = b := by
  have hd := congrArg String.data h
  simp only [String.data_append, List.append_cancel_left_eq] at hd
  exact String.ext hd

/-!  ### Claim C6: namespace stripping -/

theorem splitAtFirst_not_mem {c : Char} {l : List Char} (h : c ∉ l) :
    splitAtFirst c l = none := by
  induction l with
  | nil => rfl
  | cons x xs ih =>
    simp only [splitAtFirst]
    rw [if_neg (fun hx => h (by rw [hx]; exact List.mem_cons_self _ _))]
    rw [ih (fun hm => h (List.mem_cons_of_mem _ hm))]
    rfl

theorem splitAtFirst_first {c : Char} {pre post : List Char} (h : c ∉ pre) :
    splitAtFirst c (pre ++ c :: post) = some (pre, post) := by
  induction pre with
  | nil => simp [splitAtFirst]
  | cons x xs ih =>
    have hx : ¬ (x = c) := fun hx => h (by rw [hx]; exact List.mem_cons_self _ _)
    have ih' := ih (fun hm => h (List.mem_cons_of_mem _ hm))
    show splitAtFirst c (x :: (xs ++ c :: post)) = some (x :: xs, post)
    simp only [splitAtFirst, if_neg hx, ih']
    rfl

/-- Claim C6 as stated is false: a tag that starts with an opening brace
but has no closing brace is not "returned unchanged" — the source's
`tag.split(CLOSE, 1)[1]` raises `IndexError` (modelled as `none`). -/
theorem c6_strip_counterexample :
    strip_namespace (String.mk [lbrace, 'a', 'b', 'c']) = none ∧
    ¬ strip_namespace (String.mk [lbrace, 'a', 'b', 'c']) =
        some (String.mk [lbrace, 'a', 'b', 'c']) := by
  decide

/-- Claim C6, amended: namespace stripping removes everything up to and
including the first closing brace when the tag starts with an opening
brace and a closing brace occurs; a tag that does not start with an
opening brace is returned unchanged; a tag that starts with an opening
brace but has no closing brace makes the source raise `IndexError`
(modelled as no result) rather than being returned unchanged. -/
theorem c6_strip_amended (t : String) (pre post : List Char) :
    (t.data.head? ≠ some lbrace → strip_namespace t = some t) ∧
    (rbrace ∉ pre →
      strip_namespace (String.mk (lbrace :: pre ++ rbrace :: post)) =
        some (String.mk post)) ∧
    (rbrace ∉ pre → strip_namespace (String.mk (lbrace :: pre)) = none) := by
  refine ⟨fun h => ?_, fun h => ?_, fun h => ?_⟩
  · unfold strip_namespace
    rw [if_neg h]
  · unfold strip_namespace
    have hc : (String.mk (lbrace :: pre ++ rbrace :: post)).data.head? = some lbrace := rfl
    rw [if_pos hc]
    have hsplit : splitAtFirst rbrace ((lbrace :: pre) ++ rbrace :: post) =
        some (lbrace :: pre, post) := by
      refine splitAtFirst_first ?_
      intro hm
      rcases List.mem_cons.mp hm with h' | h'
      · exact absurd h' (by decide)
      · exact h h'
    show (splitAtFirst rbrace ((lbrace :: pre) ++ rbrace :: post)).map
        (fun p => String.mk p.2) = some (String.mk post)
    rw [hsplit]
    rfl
  · unfold strip_namespace
    have hc : (String.mk (lbrace :: pre)).data.head? = some lbrace := rfl
    rw [if_pos hc]
    have hsplit : splitAtFirst rbrace (lbrace :: pre) = none := by
      refine splitAtFirst_not_mem ?_
      intro hm
      rcases List.mem_cons.mp hm with h' | h'
      · exact absurd h' (by decide)
      · exact h h'
    show (splitAtFirst rbrace (lbrace :: pre)).map (fun p => String.mk p.2) = none
    rw [hsplit]
    rfl

theorem c6_strip_amended_witness :
    strip_namespace "plain" = some "plain" ∧
    strip_namespace (String.mk (lbrace :: "ns".data ++ rbrace :: "tag".data)) =
      some (String.mk "tag".data) ∧
    strip_namespace (String.mk (lbrace :: "ns".data)) = none := by
  refine ⟨?_, ?_, ?_⟩
  · exact (c6_strip_amended "plain" [] []).1 (by decide)
  · exact (c6_strip_amended "plain" "ns".data "tag".data).2.1 (by decide)
  · exact (c6_strip_amended "plain" "ns".data []).2.2 (by decide)

/-!  ### Claim C9: CLI exit code -/

/-- Claim C9 as stated is false: a run that finds no XML files exits with
code 1 (source line 131-133) although its aggregate failure count is
zero. -/
theorem c9_exit_counterexample : run [] = 1 ∧ total_failures [] = 0 := by
  decide

/-- Claim C9, amended: for every batch run that finds at least one
target file, the exit code is 0 exactly when no file failed; a run with
no target files exits 1 regardless. -/
theorem c9_exit_code_amended (outcomes : List FileOutcome) (h : outcomes ≠ []) :
    run outcomes = 0 ↔ total_failures outcomes = 0 := by
  have hne : outcomes.isEmpty = false := by
    cases outcomes with
    | nil => exact absurd rfl h
    | cons a l => rfl
  by_cases htf : total_failures outcomes = 0 <;> simp [run, hne, htf]

theorem c9_exit_code_amended_witness :
    run [FileOutcome.missing] = 0 ↔ total_failures [FileOutcome.missing] = 0 :=
  c9_exit_code_amended [FileOutcome.missing] (List.cons_ne_nil _ _)

/-!  ### Claim C5: leaf normalization -/

/-- Claim C5: an element with no children and no attributes normalizes to
its whitespace-stripped text when that is non-empty and to Absent
otherwise; whitespace-only text therefore behaves exactly like absent
text. -/
theorem c5_leaf_normalization (e : Element) (hok : tagsOk e = true)
    (hch : e.children = []) (hat : e.attrib = []) :
    etree_to_dict e =
      (if pyStrip e.text = "" then JValue.null else JValue.str (pyStrip e.text)) := by
  obtain ⟨tag, attrib, text, children⟩ := e
  simp only [Element.children] at hch
  simp only [Element.attrib] at hat
  subst hch; subst hat
  simp [etree_to_dict, Element.text]

/-!  ### Claim C1: grouping of children -/

theorem mem_firstKeys_go {l acc : List String} {k : String} :
    k ∈ l.foldl (fun acc k => if k ∈ acc then acc else acc ++ [k]) acc ↔
      k ∈ acc ∨ k ∈ l := by
  induction l generalizing acc with
  | nil => simp
  | cons x xs ih =>
    simp only [List.foldl_cons]
    rw [ih]
    by_cases hx : x ∈ acc
    · rw [if_pos hx]
      constructor
      · rintro (h | h)
        · exact Or.inl h
        · exact Or.inr (List.mem_cons_of_mem _ h)
      · rintro (h | h)
        · exact Or.inl h
        · rcases List.mem_cons.mp h with h' | h'
          · exact Or.inl (by rw [h']; exact hx)
          · exact Or.inr h'
    · rw [if_neg hx]
      simp only [List.mem_append, List.mem_singleton, List.mem_cons]
      tauto

theorem mem_firstKeys {l : List String} {k : String} :
    k ∈ firstKeys l ↔ k ∈ l := by
  unfold firstKeys
  rw [mem_firstKeys_go]
  simp

theorem addToGroup_foldl_eq_specGroups (qs : List (String × JValue)) :
    qs.foldl (fun g p => addToGroup g p.1 p.2) [] = specGroups qs := by
  induction qs using List.reverseRecOn with
  | nil => rfl
  | append_singleton qs q ih =>
    obtain ⟨k, v⟩ := q
    rw [List.foldl_append, List.foldl_cons, List.foldl_nil, ih]
    show addToGroup (specGroups qs) k v = specGroups (qs ++ [(k, v)])
    have hkeys : firstKeys ((qs ++ [(k, v)]).map Prod.fst) =
        (if k ∈ firstKeys (qs.map Prod.fst) then firstKeys (qs.map Prod.fst)
         else firstKeys (qs.map Prod.fst) ++ [k]) := by
      simp [firstKeys, List.foldl_append]
    have hany : ((specGroups qs).any (fun p => p.1 == k) = true) ↔
        k ∈ firstKeys (qs.map Prod.fst) := by
      unfold specGroups
      simp [List.any_eq_true]
    by_cases hk : k ∈ firstKeys (qs.map Prod.fst)
    · unfold addToGroup
      rw [if_pos (hany.mpr hk)]
      unfold specGroups
      rw [hkeys, if_pos hk, List.map_map]
      refine List.map_congr_left (fun a _ => ?_)
      simp only [Function.comp]
      by_cases hak : a = k
      · subst hak
        simp [List.filter_append, List.filter]
      · have h1 : (a == k) = false := by simpa using hak
        have h2 : ((k, v).1 == a) = false := by
          simp only [beq_eq_false_iff_ne]
          exact fun hh => hak hh.symm
        simp [List.filter_append, List.filter, h1, h2]
    · unfold addToGroup
      rw [if_neg (fun hh => hk (hany.mp hh))]
      unfold specGroups
      rw [hkeys, if_neg hk, List.map_append]
      congr 1
      · refine List.map_congr_left (fun a ha => ?_)
        have hak : a ≠ k := fun hh => hk (hh ▸ ha)
        have h2 : ((k, v).1 == a) = false := by
          simp only [beq_eq_false_iff_ne]
          exact fun hh => hak hh.symm
        simp [List.filter_append, List.filter, h2]
      · have hfilter : qs.filter (fun p => p.1 == k) = [] := by
          rw [List.filter_eq_nil_iff]
          intro p hp
          simp only [Bool.not_eq_true, beq_eq_false_iff_ne]
          intro hh
          exact hk (mem_firstKeys.mpr (hh ▸ List.mem_map_of_mem Prod.fst hp))
        simp [List.filter_append, List.filter, hfilter]

theorem groupPairs_eq_survivors_foldl (pairs : List (String × JValue)) :
    groupPairs pairs = (survivors pairs).foldl (fun g p => addToGroup g p.1 p.2) [] := by
  suffices h : ∀ g : List (String × List JValue),
      pairs.foldl (fun g p => match p.2 with
        | .null => g
        | v => addToGroup g p.1 v) g
        = (survivors pairs).foldl (fun g p => addToGroup g p.1 p.2) g from h []
  intro g
  induction pairs generalizing g with
  | nil => rfl
  | cons p rest ih =>
    obtain ⟨k, v⟩ := p
    cases v with
    | null => simpa [survivors, List.filter_cons] using ih g
    | str s => simpa [survivors, List.filter_cons] using ih (addToGroup g k (JValue.str s))
    | obj entries => simpa [survivors, List.filter_cons] using ih (addToGroup g k (JValue.obj entries))
    | arr elems => simpa [survivors, List.filter_cons] using ih (addToGroup g k (JValue.arr elems))

/-- Shared bridge: the source's null-skipping `setdefault`/`append`
grouping followed by the single-vs-list store step equals the
specification-side grouping of the surviving children. -/
theorem storeGroups_groupPairs_eq_groupSpec (pairs : List (String × JValue)) :
    storeGroups (groupPairs pairs) = groupSpec pairs := by
  rw [show groupPairs pairs =
      (survivors pairs).foldl (fun g p => addToGroup g p.1 p.2) [] from
      groupPairs_eq_survivors_foldl pairs]
  rw [addToGroup_foldl_eq_specGroups]
  unfold storeGroups specGroups groupSpec
  rw [List.map_map]
  rfl

/-- Claim C1: for every element, the child-grouping stage of
`etree_to_dict` groups the children by local name with names in
first-occurrence order (among surviving children) and document order
within a group, drops every child whose normalized value is Absent, and
stores a single surviving value directly and several surviving values as
a List in document order. -/
theorem c1_child_grouping (e : Element) (hok : tagsOk e = true) :
    storeGroups (groupPairs (childPairs e)) = groupSpec (childPairs e) :=
  storeGroups_groupPairs_eq_groupSpec (childPairs e)

theorem c1_child_grouping_witness :
    storeGroups (groupPairs (childPairs (Element.mk "Products" [] ""
        [Element.mk "Product" [] "" [Element.mk "Name" [] "x" []],
         Element.mk "Note" [] "" [],
         Element.mk "Product" [] "" [Element.mk "Name" [] "y" []],
         Element.mk "Code" [] "7" []])))
      = groupSpec (childPairs (Element.mk "Products" [] ""
        [Element.mk "Product" [] "" [Element.mk "Name" [] "x" []],
         Element.mk "Note" [] "" [],
         Element.mk "Product" [] "" [Element.mk "Name" [] "y" []],
         Element.mk "Code" [] "7" []])) ∧
    groupSpec (childPairs (Element.mk "Products" [] ""
        [Element.mk "Product" [] "" [Element.mk "Name" [] "x" []],
         Element.mk "Note" [] "" [],
         Element.mk "Product" [] "" [Element.mk "Name" [] "y" []],
         Element.mk "Code" [] "7" []]))
      = [("Product", JValue.arr [JValue.obj [("Name", JValue.str "x")],
          JValue.obj [("Name", JValue.str "y")]]),
         ("Code", JValue.str "7")] := by
  constructor
  · exact c1_child_grouping (Element.mk "Products" [] ""
        [Element.mk "Product" [] "" [Element.mk "Name" [] "x" []],
         Element.mk "Note" [] "" [],
         Element.mk "Product" [] "" [Element.mk "Name" [] "y" []],
         Element.mk "Code" [] "7" []]) (by decide)
  · decide

/-!  ### Claim C2: the collapse rule -/

theorem finalize_nil (tagL : String) (fb : JValue) : finalize tagL [] fb = fb := rfl

theorem finalize_collapse {tagL : String} {r : List (String × JValue)} (fb : JValue)
    (h : collapseCond tagL r) : finalize tagL r fb = soleVal r := by
  obtain ⟨ha, hv, hlen, hhead⟩ := h
  cases r with
  | nil => simp at hlen
  | cons p rest =>
    cases rest with
    | cons q rest' => simp at hlen
    | nil =>
      obtain ⟨k, w⟩ := p
      have hk : k = tagL := by simpa using hhead
      subst hk
      simp [finalize, soleVal, ha, hv]

theorem finalize_not_collapse {tagL : String} {r : List (String × JValue)} (fb : JValue)
    (hne : r ≠ []) (h : ¬ collapseCond tagL r) : finalize tagL r fb = JValue.obj r := by
  unfold finalize
  rw [if_neg (by simpa [List.isEmpty_iff] using hne)]
  by_cases hcond : (!hasKey r "attributes" && !hasKey r "value" && r.length == 1) = true
  · rw [if_pos hcond]
    have hparts : hasKey r "attributes" = false ∧ hasKey r "value" = false ∧
        r.length = 1 := by
      simpa [Bool.and_eq_true, Bool.not_eq_true', and_assoc] using hcond
    obtain ⟨hab, hvb, hlen⟩ := hparts
    cases r with
    | nil => exact absurd rfl hne
    | cons p rest =>
      cases rest with
      | cons q rest' => simp at hlen
      | nil =>
        obtain ⟨k, w⟩ := p
        have hk : ¬ (k = tagL) := by
          intro hk
          exact h ⟨hab, hvb, rfl, by simp [hk]⟩
        simp [hk]
  · rw [if_neg hcond]

/-- Claim C2 as stated is false on an element whose built dict stays
empty: for `<a><b/></a>` every child normalizes to Absent, the built Map
is empty, and `etree_to_dict` returns Absent — not "the built Map
unchanged". -/
theorem c2_collapse_counterexample :
    (eNoInfo.children ≠ [] ∨ eNoInfo.attrib ≠ []) ∧
    ¬ collapseCond (stripLocal eNoInfo.tag) (builtMap eNoInfo) ∧
    builtMap eNoInfo = [] ∧
    etree_to_dict eNoInfo ≠ JValue.obj (builtMap eNoInfo) := by
  refine ⟨Or.inl (List.cons_ne_nil _ _), ?_, by decide, by decide⟩
  intro hc
  exact absurd hc.2.2.1 (by decide)

/-- Claim C2, amended: on an element that builds a dict at all, the
collapse replaces the Map by its sole entry's value exactly under the
stated condition, and in every other case with a NON-EMPTY built Map the
Map is returned unchanged; when the built Map is empty the function
instead returns the trimmed text if non-empty and Absent otherwise. -/
theorem c2_collapse_amended (e : Element) (hok : tagsOk e = true)
    (hbuild : e.children ≠ [] ∨ e.attrib ≠ []) :
    (collapseCond (stripLocal e.tag) (builtMap e) →
      etree_to_dict e = soleVal (builtMap e)) ∧
    (builtMap e ≠ [] → ¬ collapseCond (stripLocal e.tag) (builtMap e) →
      etree_to_dict e = JValue.obj (builtMap e)) ∧
    (builtMap e = [] →
      etree_to_dict e =
        (if pyStrip e.text = "" then JValue.null else JValue.str (pyStrip e.text))) := by
  obtain ⟨tag, attrib, text, children⟩ := e
  simp only [Element.children, Element.attrib, Element.text, Element.tag] at *
  have hcond : (children.isEmpty && attrib.isEmpty) = false := by
    rcases hbuild with h | h
    · have hh : children.isEmpty = false := by simpa [List.isEmpty_iff] using h
      simp [hh]
    · have hh : attrib.isEmpty = false := by simpa [List.isEmpty_iff] using h
      simp [hh]
  have hetree : etree_to_dict (Element.mk tag attrib text children) =
      (if pyStrip text = "" then
        finalize (stripLocal tag) (buildCore attrib (childPairsList children)) JValue.null
      else if (buildCore attrib (childPairsList children)).isEmpty then
        JValue.str (pyStrip text)
      else
        finalize (stripLocal tag)
          (dinsert (buildCore attrib (childPairsList children)) "value"
            (JValue.str (pyStrip text)))
          (JValue.str (pyStrip text))) := by
    simp only [etree_to_dict, hcond, Bool.false_eq_true, if_false]
  have hbuilt : builtMap (Element.mk tag attrib text children) =
      (if pyStrip text = "" || (buildCore attrib (childPairsList children)).isEmpty then
        buildCore attrib (childPairsList children)
      else
        dinsert (buildCore attrib (childPairsList children)) "value"
          (JValue.str (pyStrip text))) := by
    simp only [builtMap, hcond, Bool.false_eq_true, if_false]
  by_cases ht : pyStrip text = ""
  · by_cases hr1 : buildCore attrib (childPairsList children) = []
    · rw [hetree, hbuilt]
      simp only [ht, hr1, if_pos rfl, List.isEmpty_nil, Bool.or_true, if_true]
      refine ⟨?_, ?_, ?_⟩
      · intro hc
        exact absurd hc.2.2.1 (by simp)
      · intro hne _
        exact absurd rfl hne
      · intro _
        simp [finalize_nil, ht]
    · rw [hetree, hbuilt]
      have hempty : (buildCore attrib (childPairsList children)).isEmpty = false := by
        simpa [List.isEmpty_iff] using hr1
      simp only [ht, if_pos rfl, hempty, Bool.or_false]
      refine ⟨?_, ?_, ?_⟩
      · intro hc
        exact finalize_collapse _ hc
      · intro _ hnc
        exact finalize_not_collapse _ hr1 hnc
      · intro habs
        exact absurd habs hr1
  · by_cases hr1 : buildCore attrib (childPairsList children) = []
    · rw [hetree, hbuilt]
      simp only [ht, if_neg ht, hr1, List.isEmpty_nil, Bool.or_true, if_true]
      refine ⟨?_, ?_, ?_⟩
      · intro hc
        exact absurd hc.2.2.1 (by simp)
      · intro hne _
        exact absurd rfl hne
      · intro _
        simp [ht]
    · rw [hetree, hbuilt]
      have hempty : (buildCore attrib (childPairsList children)).isEmpty = false := by
        simpa [List.isEmpty_iff] using hr1
      simp only [ht, if_neg ht, hempty, decide_False, Bool.false_or, Bool.or_false,
        Bool.false_eq_true, if_false]
      refine ⟨?_, ?_, ?_⟩
      · intro hc
        have := hc.2.1
        rw [hasKey_dinsert_self] at this
        cases this
      · intro hne hnc
        exact finalize_not_collapse _ (dinsert_ne_nil _ _ _) hnc
      · intro habs
        exact absurd habs (dinsert_ne_nil _ _ _)

theorem c2_collapse_amended_witness :
    etree_to_dict (Element.mk "P" [] "" [Element.mk "P" [] "x" [], Element.mk "P" [] "y" []])
      = soleVal (builtMap
          (Element.mk "P" [] "" [Element.mk "P" [] "x" [], Element.mk "P" [] "y" []])) ∧
    soleVal (builtMap
        (Element.mk "P" [] "" [Element.mk "P" [] "x" [], Element.mk "P" [] "y" []]))
      = JValue.arr [JValue.str "x", JValue.str "y"] := by
  constructor
  · exact (c2_collapse_amended
      (Element.mk "P" [] "" [Element.mk "P" [] "x" [], Element.mk "P" [] "y" []])
      (by decide) (Or.inl (List.cons_ne_nil _ _))).1
      ⟨by decide, by decide, by decide, by decide⟩
  · decide

/-!  ### Claim C10: no empty Maps or empty Scalars -/

theorem measureInd {α : Type} (m : α → Nat) (P : α → Prop)
    (step : ∀ x, (∀ y, m y < m x → P y) → P x) : ∀ x, P x := by
  have h : ∀ n x, m x < n → P x := by
    intro n
    induction n with
    | zero => intro x hx; omega
    | succ n ih => intro x hx; exact step x (fun y hy => ih y (by omega))
  exact fun x => h (m x + 1) x (Nat.lt_succ_self _)

theorem sizeOf_child_lt {c : Element} {tag : String} {attrib : List (String × String)}
    {text : String} {children : List Element} (hc : c ∈ children) :
    sizeOf c < sizeOf (Element.mk tag attrib text children) := by
  have h1 := List.sizeOf_lt_of_mem hc
  simp only [Element.mk.sizeOf_spec]
  omega

theorem element_ind (P : Element → Prop)
    (step : ∀ (tag : String) (attrib : List (String × String)) (text : String)
      (children : List Element),
      (∀ c ∈ children, P c) → P (Element.mk tag attrib text children)) :
    ∀ e, P e := by
  refine measureInd sizeOf P (fun e ih => ?_)
  obtain ⟨tag, attrib, text, children⟩ := e
  exact step tag attrib text children (fun c hc => ih c (sizeOf_child_lt hc))

theorem mem_buildCore {attrib : List (String × String)}
    {pairs : List (String × JValue)} {p : String × JValue}
    (hp : p ∈ buildCore attrib pairs) :
    (p.1 = "attributes" ∧ p.2 = JValue.obj (attrEntries attrib)) ∨
      p ∈ storeGroups (groupPairs pairs) := by
  unfold buildCore at hp
  by_cases hat : attrib.isEmpty
  · simp only [hat, if_true] at hp
    rcases mem_dupdate hp with h | h
    · cases h
    · exact Or.inr h
  · simp only [hat, if_false] at hp
    rcases mem_dupdate hp with h | h
    · left
      rcases List.mem_singleton.mp h with rfl
      exact ⟨rfl, rfl⟩
    · exact Or.inr h

theorem mem_groupSpec {pairs : List (String × JValue)} {p : String × JValue}
    (hp : p ∈ groupSpec pairs) :
    (∃ q ∈ pairs, q.2 = p.2) ∨ (∃ vs, p.2 = JValue.arr vs) := by
  unfold groupSpec at hp
  obtain ⟨k, hk, hpk⟩ := List.mem_map.mp hp
  cases hvs : ((survivors pairs).filter (fun q => q.1 == k)).map Prod.snd with
  | nil =>
    right
    rw [hvs] at hpk
    exact ⟨[], by rw [← hpk]⟩
  | cons w rest =>
    cases hrest : rest with
    | nil =>
      left
      rw [hrest] at hvs
      rw [hvs] at hpk
      have hw : w ∈ ((survivors pairs).filter (fun q => q.1 == k)).map Prod.snd := by
        rw [hvs]
        exact List.mem_cons_self _ _
      obtain ⟨q, hq, hqw⟩ := List.mem_map.mp hw
      have hq1 : q ∈ survivors pairs := List.mem_of_mem_filter hq
      have hq2 : q ∈ pairs := List.mem_of_mem_filter hq1
      refine ⟨q, hq2, ?_⟩
      rw [hqw, ← hpk]
    | cons w2 rest2 =>
      right
      rw [hrest] at hvs
      rw [hvs] at hpk
      exact ⟨w :: w2 :: rest2, by rw [← hpk]⟩

theorem mem_childPairsList {children : List Element} {p : String × JValue}
    (hp : p ∈ childPairsList children) : ∃ c ∈ children, p.2 = etree_to_dict c := by
  induction children with
  | nil => cases hp
  | cons c rest ih =>
    simp only [childPairsList] at hp
    rcases List.mem_cons.mp hp with rfl | h
    · exact ⟨c, List.mem_cons_self _ _, rfl⟩
    · obtain ⟨d, hd, hpd⟩ := ih h
      exact ⟨d, List.mem_cons_of_mem _ hd, hpd⟩

/-- Any value stored for a group key in the built dict is either a single
child's normalized value or a List; combined with the recursive invariant
this carries `NoEmptyTop` through the collapse rule. -/
theorem noEmptyTop_etree : ∀ e, NoEmptyTop (etree_to_dict e) := by
  refine element_ind _ (fun tag attrib text children ih => ?_)
  by_cases hle : (children.isEmpty && attrib.isEmpty) = true
  · have heq : etree_to_dict (Element.mk tag attrib text children) =
        (if pyStrip text = "" then JValue.null else JValue.str (pyStrip text)) := by
      simp only [etree_to_dict, hle, if_true]
    rw [heq]
    by_cases ht : pyStrip text = "" <;> simp [NoEmptyTop, ht]
  · have hle' : (children.isEmpty && attrib.isEmpty) = false := by
      simpa using hle
    have hetree : etree_to_dict (Element.mk tag attrib text children) =
        (if pyStrip text = "" then
          finalize (stripLocal tag) (buildCore attrib (childPairsList children)) JValue.null
        else if (buildCore attrib (childPairsList children)).isEmpty then
          JValue.str (pyStrip text)
        else
          finalize (stripLocal tag)
            (dinsert (buildCore attrib (childPairsList children)) "value"
              (JValue.str (pyStrip text)))
            (JValue.str (pyStrip text))) := by
      simp only [etree_to_dict, hle', Bool.false_eq_true, if_false]
    rw [hetree]
    have hsole : ∀ r : List (String × JValue),
        r = buildCore attrib (childPairsList children) →
        collapseCond (stripLocal tag) r → NoEmptyTop (soleVal r) := by
      intro r hr hc
      obtain ⟨hab, hvb, hlen, hhead⟩ := hc
      cases r with
      | nil => simp at hlen
      | cons p rest =>
        cases rest with
        | cons q rest' => simp at hlen
        | nil =>
          obtain ⟨k, w⟩ := p
          have hkne : k ≠ "attributes" :=
            hasKey_eq_false_iff.mp hab (k, w) (List.mem_cons_self _ _)
          have hmem : ((k, w) : String × JValue) ∈
              buildCore attrib (childPairsList children) := by
            rw [← hr]
            exact List.mem_cons_self _ _
          rcases mem_buildCore hmem with ⟨hk1, _⟩ | hmem2
          · exact absurd hk1 hkne
          · rw [storeGroups_groupPairs_eq_groupSpec] at hmem2
            rcases mem_groupSpec hmem2 with ⟨q, hq, hq2⟩ | ⟨vs, hvs⟩
            · obtain ⟨c, hc', hc2⟩ := mem_childPairsList hq
              have hne := ih c hc'
              have hw : w = etree_to_dict c := by
                have : q.2 = w := hq2
                rw [← this, hc2]
              show NoEmptyTop (soleVal [(k, w)])
              unfold soleVal
              rw [hw]
              exact hne
            · show NoEmptyTop (soleVal [(k, w)])
              unfold soleVal
              have hw : w = JValue.arr vs := hvs
              rw [hw]
              trivial
    by_cases ht : pyStrip text = ""
    · rw [if_pos ht]
      by_cases hr1 : buildCore attrib (childPairsList children) = []
      · rw [hr1, finalize_nil]
        trivial
      · by_cases hc : collapseCond (stripLocal tag)
            (buildCore attrib (childPairsList children))
        · rw [finalize_collapse _ hc]
          exact hsole _ rfl hc
        · rw [finalize_not_collapse _ hr1 hc]
          exact hr1
    · rw [if_neg ht]
      by_cases hr1 : buildCore attrib (childPairsList children) = []
      · rw [hr1]
        simp only [List.isEmpty_nil, if_true]
        exact ht
      · have hempty : (buildCore attrib (childPairsList children)).isEmpty = false := by
          simpa [List.isEmpty_iff] using hr1
        rw [hempty]
        simp only [Bool.false_eq_true, if_false]
        have hnc : ¬ collapseCond (stripLocal tag)
            (dinsert (buildCore attrib (childPairsList children)) "value"
              (JValue.str (pyStrip text))) := by
          intro hc
          have := hc.2.1
          rw [hasKey_dinsert_self] at this
          cases this
        rw [finalize_not_collapse _ (dinsert_ne_nil _ _ _) hnc]
        exact dinsert_ne_nil _ _ _

/-- Claim C10: `etree_to_dict` never returns an empty Map and never
returns an empty-string Scalar — at every recursion level, a returned
Map has at least one entry and a returned Scalar is a non-empty string,
Absent being the only representation of missing information. -/
theorem c10_no_empty_values (e : Element) (hok : tagsOk e = true) :
    NoEmptyTop (etree_to_dict e) :=
  noEmptyTop_etree e

theorem c10_no_empty_values_witness :
    etree_to_dict (Element.mk "a" [("k", "v")] "" [Element.mk "b" [] " " []])
      = JValue.obj [("attributes", JValue.obj [("k", JValue.str "v")])] ∧
    NoEmptyTop (etree_to_dict (Element.mk "a" [("k", "v")] "" [Element.mk "b" [] " " []])) :=
  ⟨by decide, c10_no_empty_values (Element.mk "a" [("k", "v")] "" [Element.mk "b" [] " " []])
    (by decide)⟩

/-!  ### Claim C5: leaf normalization -/

theorem c5_leaf_normalization_witness :
    etree_to_dict (Element.mk "Note" [] "   " []) = JValue.null ∧
    etree_to_dict (Element.mk "Name" [] " Aspirin " []) = JValue.str "Aspirin" := by
  constructor
  · have h := c5_leaf_normalization (Element.mk "Note" [] "   " []) (by decide) rfl rfl
    simpa using h
  · have h := c5_leaf_normalization (Element.mk "Name" [] " Aspirin " []) (by decide) rfl rfl
    simpa using h

/-!  ### Claim C7: idempotence on flat records -/

theorem flattenObj_flat (r : List (String × JValue)) :
    ∀ acc : List (String × JValue),
      (∀ p ∈ r, ¬ (p.1 = "") ∧ scalarish p.2 = true) →
      flattenObj r "" acc = dupdate acc r := by
  induction r with
  | nil => intro acc h; rfl
  | cons p rest ih =>
    intro acc h
    obtain ⟨k, v⟩ := p
    obtain ⟨hk, hv⟩ := h (k, v) (List.mem_cons_self _ _)
    have hrest := fun q hq => h q (List.mem_cons_of_mem _ hq)
    have hjoin : joinKey "" k = k := by simp [joinKey]
    cases v with
    | obj entries => simp [scalarish] at hv
    | null =>
      have hflat : flatten_dict JValue.null (joinKey "" k) = [(k, JValue.null)] := by
        rw [hjoin]
        simp [flatten_dict, hk]
      simp only [flattenObj, hflat]
      rw [ih (dupdate acc [(k, JValue.null)]) hrest]
      rfl
    | str s =>
      have hflat : flatten_dict (JValue.str s) (joinKey "" k) = [(k, JValue.str s)] := by
        rw [hjoin]
        simp [flatten_dict, hk]
      simp only [flattenObj, hflat]
      rw [ih (dupdate acc [(k, JValue.str s)]) hrest]
      rfl
    | arr elems =>
      have hall : elems.all isScalar = true := by simpa [scalarish] using hv
      have hflat : flatten_dict (JValue.arr elems) (joinKey "" k) =
          [(k, JValue.arr elems)] := by
        rw [hjoin]
        simp [flatten_dict, hk, hall]
      simp only [flattenObj, hflat]
      rw [ih (dupdate acc [(k, JValue.arr elems)]) hrest]
      rfl

/-- Claim C7: flattening an already-flat record (duplicate-free non-empty
keys, values only scalars or scalar lists) returns it unchanged, so a
second pass of the flattener equals a single direct pass. -/
theorem c7_flatten_idempotent (r : List (String × JValue)) (h : isFlatRecord r = true) :
    flatten_dict (JValue.obj r) "" = r := by
  have hparts : keysNodup r = true ∧ ∀ p ∈ r, ¬ (p.1 = "") ∧ scalarish p.2 = true := by
    unfold isFlatRecord at h
    rw [Bool.and_eq_true] at h
    refine ⟨h.1, fun p hp => ?_⟩
    have hh := List.all_eq_true.mp h.2 p hp
    rw [Bool.and_eq_true] at hh
    exact ⟨by simpa using hh.1, hh.2⟩
  show flattenObj r "" [] = r
  rw [flattenObj_flat r [] hparts.2]
  exact dictOf_self hparts.1

theorem c7_flatten_idempotent_witness :
    flatten_dict (JValue.obj [("a", JValue.str "x"),
        ("b", JValue.arr [JValue.str "1", JValue.str "2"]),
        ("c.attributes.k", JValue.str "v")]) ""
      = [("a", JValue.str "x"), ("b", JValue.arr [JValue.str "1", JValue.str "2"]),
         ("c.attributes.k", JValue.str "v")] :=
  c7_flatten_idempotent
    [("a", JValue.str "x"), ("b", JValue.arr [JValue.str "1", JValue.str "2"]),
     ("c.attributes.k", JValue.str "v")] (by decide)

/-!  ### Claim C3: per-product records -/

theorem dget_broadcast_mem {attrs : List (String × JValue)} {pre : String}
    (hnd : keysNodup attrs = true) {a : String} {v : JValue} (hav : (a, v) ∈ attrs) :
    ∀ r0 : List (String × JValue),
      dget (dupdate r0 (attrs.map (fun q => (pre ++ q.1, q.2)))) (pre ++ a) = some v := by
  induction attrs with
  | nil => cases hav
  | cons q rest ih =>
    intro r0
    obtain ⟨hq, hnd'⟩ := keysNodup_cons.mp hnd
    obtain ⟨b, w⟩ := q
    rcases List.mem_cons.mp hav with heq | hmem
    · cases heq
      show dget (dupdate (dinsert r0 (pre ++ a) v)
        (rest.map (fun q => (pre ++ q.1, q.2)))) (pre ++ a) = some v
      rw [dget_dupdate_ne ?hfresh]
      · exact dget_dinsert_self _ _ _
      · intro p hp
        obtain ⟨q', hq', hqp⟩ := List.mem_map.mp hp
        intro hkey
        rw [← hqp] at hkey
        exact hq q' hq' (string_append_cancel_left hkey)
    · show dget (dupdate (dinsert r0 (pre ++ b) w)
        (rest.map (fun q => (pre ++ q.1, q.2)))) (pre ++ a) = some v
      exact ih hnd' hmem _

/-- Claim C3: a document whose root holds a `Products` dict with a
`Product` key flattens to exactly one record per item, in item order,
each record carrying every container-level attribute under
`Products.attributes.<name>`; any other document flattens to a single
record. -/
theorem repeatedShape_some {data ps : List (String × JValue)}
    (h : repeatedShape data = some ps) :
    dget data "Products" = some (JValue.obj ps) ∧ hasKey ps "Product" = true := by
  unfold repeatedShape at h
  split at h
  · rename_i ps' heq
    split at h
    · rename_i hpk
      injection h with h'
      subst h'
      exact ⟨heq, hpk⟩
    · cases h
  · cases h

theorem flatten_data_of_shape {data ps : List (String × JValue)}
    (hdg : dget data "Products" = some (JValue.obj ps))
    (hpk : hasKey ps "Product" = true) :
    flatten_data data = FlattenResult.recs
      ((productItems ((dget ps "Product").getD (JValue.arr []))).map
        (fun item => broadcastAttrs (dget ps "attributes") (flatten_dict item ""))) := by
  unfold flatten_data
  split
  · rename_i ps' heq
    rw [hdg] at heq
    injection heq with heq'
    have hps : ps' = ps := JValue.obj.inj heq'.symm
    subst hps
    rw [if_pos hpk]
  · rename_i hne
    exact absurd hdg (hne ps)

theorem flatten_data_of_no_shape {data : List (String × JValue)}
    (h : repeatedShape data = none) :
    flatten_data data = FlattenResult.single (flatten_dict (JValue.obj data) "") := by
  unfold repeatedShape at h
  unfold flatten_data
  split
  · rename_i ps' heq
    split at h
    · rename_i ps'' heq2
      rw [heq] at heq2
      injection heq2 with heq3
      have hps := JValue.obj.inj heq3
      subst hps
      split at h
      · cases h
      · rename_i hpk
        rw [if_neg hpk]
    · rename_i hne
      exact absurd heq (hne ps')
  · rfl

/-- Claim C3: when the normalized document's root map contains the
repeated-entity shape (a `Products` key holding a map with a `Product`
key), `flatten_data` returns one record per product item, in order
(record `i` is the flattening of item `i`), and every container-level
attribute appears in every record under a `Products.attributes.<name>`
key; when the shape is absent the whole document is flattened as one
single record. The attribute-broadcast conjunct assumes the container's
attribute names are duplicate-free, so that each name denotes one
attribute. -/
theorem c3_flatten_data_records (data : List (String × JValue)) :
    (∀ ps, repeatedShape data = some ps →
      keysNodup (containerAttrs ps) = true →
      ∃ rs, flatten_data data = FlattenResult.recs rs ∧
        rs.length = (productItems ((dget ps "Product").getD (JValue.arr []))).length ∧
        (∀ i : Nat, rs[i]? =
          ((productItems ((dget ps "Product").getD (JValue.arr [])))[i]?).map
            (fun item => broadcastAttrs (dget ps "attributes") (flatten_dict item ""))) ∧
        (∀ r ∈ rs, ∀ p ∈ containerAttrs ps,
          dget r ("Products.attributes." ++ p.1) = some p.2)) ∧
    (repeatedShape data = none →
      flatten_data data = FlattenResult.single (flatten_dict (JValue.obj data) "")) := by
  constructor
  · intro ps hshape hnd
    obtain ⟨hdg, hpk⟩ := repeatedShape_some hshape
    refine ⟨_, flatten_data_of_shape hdg hpk, by simp, fun i => by simp,
      fun r hr p hp => ?_⟩
    obtain ⟨item, hitem, hrit⟩ := List.mem_map.mp hr
    rw [← hrit]
    unfold broadcastAttrs
    unfold containerAttrs at hp hnd
    cases hattr : dget ps "attributes" with
    | none => rw [hattr] at hp; cases hp
    | some av =>
      rw [hattr] at hp hnd
      cases av with
      | null => cases hp
      | str s => cases hp
      | arr l => cases hp
      | obj attrs => exact dget_broadcast_mem hnd hp _
  · exact flatten_data_of_no_shape

theorem c3_flatten_data_records_witness :
    ∃ rs, flatten_data [("Products", JValue.obj
        [("attributes", JValue.obj [("id", JValue.str "42")]),
         ("Product", JValue.obj [("Name",
            JValue.arr [JValue.str "Aspirin", JValue.str "Bayer"])])])]
        = FlattenResult.recs rs ∧
      rs.length = 1 ∧
      (∀ r ∈ rs, ∀ p ∈ containerAttrs
          [("attributes", JValue.obj [("id", JValue.str "42")]),
           ("Product", JValue.obj [("Name",
              JValue.arr [JValue.str "Aspirin", JValue.str "Bayer"])])],
        dget r ("Products.attributes." ++ p.1) = some p.2) := by
  obtain ⟨rs, h1, h2, h3, h4⟩ :=
    (c3_flatten_data_records [("Products", JValue.obj
        [("attributes", JValue.obj [("id", JValue.str "42")]),
         ("Product", JValue.obj [("Name",
            JValue.arr [JValue.str "Aspirin", JValue.str "Bayer"])])])]).1
      [("attributes", JValue.obj [("id", JValue.str "42")]),
       ("Product", JValue.obj [("Name",
          JValue.arr [JValue.str "Aspirin", JValue.str "Bayer"])])]
      (by decide) (by decide)
  refine ⟨rs, h1, ?_, h4⟩
  rw [h2]
  decide

/-!  ### Claim C8: error taxonomy of `convert_xml_to_json` -/

theorem convert_ok (env : ConvEnv) (h : firstExc env = none) :
    ∃ ihash ohash : Option String, convert_xml_to_json env =
      { success := true, records_processed := convRecords env,
        warning_message :=
          (if convRecords env = 0 then some "No products found in XML file" else none),
        error_message := none, input_sha256 := ihash, output_sha256 := ohash } := by
  obtain ⟨cc, fl, ih, pa, wo, oh⟩ := env
  cases cc <;> cases ih <;> cases pa <;> cases wo <;> cases oh <;>
    simp_all [convert_xml_to_json, firstExc, stepErr, convRecords, Except.map,
      Functor.map, Except.bind, Bind.bind, pure, Except.pure, Option.orElse,
      HOrElse.hOrElse, OrElse.orElse]

/-- Claim C8: `convert_xml_to_json` never propagates an exception — the
first exception of the `try` block is mapped to a failure result whose
message is the parse-error message for `ET.ParseError` and the
unexpected-error message for any other exception; a run with no exception
succeeds, and a successful run with zero records carries the
no-products warning, whose CLI status is `warning`, distinct from
`failure`. -/
theorem c8_error_taxonomy (env : ConvEnv) :
    (∀ m, firstExc env = some (PyExc.parseErr m) →
      convert_xml_to_json env = failureResult ("XML parse error: " ++ m)) ∧
    (∀ m, firstExc env = some (PyExc.otherErr m) →
      convert_xml_to_json env = failureResult ("Unexpected error: " ++ m)) ∧
    (firstExc env = none →
      (convert_xml_to_json env).success = true ∧
      (convert_xml_to_json env).error_message = none ∧
      ((convert_xml_to_json env).records_processed = 0 ↔
        (convert_xml_to_json env).warning_message =
          some "No products found in XML file") ∧
      ((convert_xml_to_json env).records_processed = 0 →
        statusOfResult (convert_xml_to_json env) = "warning" ∧
        statusOfResult (convert_xml_to_json env) ≠ "failure")) := by
  refine ⟨fun m hm => ?_, fun m hm => ?_, fun h => ?_⟩
  · obtain ⟨cc, fl, ih, pa, wo, oh⟩ := env
    cases cc <;> cases ih <;> cases pa <;> cases wo <;> cases oh <;>
      simp_all [convert_xml_to_json, firstExc, stepErr, failureResult, Except.map,
        Functor.map, Except.bind, Bind.bind, pure, Except.pure, Option.orElse,
        HOrElse.hOrElse, OrElse.orElse]
  · obtain ⟨cc, fl, ih, pa, wo, oh⟩ := env
    cases cc <;> cases ih <;> cases pa <;> cases wo <;> cases oh <;>
      simp_all [convert_xml_to_json, firstExc, stepErr, failureResult, Except.map,
        Functor.map, Except.bind, Bind.bind, pure, Except.pure, Option.orElse,
        HOrElse.hOrElse, OrElse.orElse]
  · obtain ⟨ihash, ohash, heq⟩ := convert_ok env h
    rw [heq]
    refine ⟨rfl, rfl, ?_, fun hrc0 => ?_⟩
    · show convRecords env = 0 ↔
        (if convRecords env = 0 then some "No products found in XML file" else none) =
          some "No products found in XML file"
      by_cases hrc : convRecords env = 0
      · simp [hrc]
      · simp [hrc]
    · have hrc : convRecords env = 0 := hrc0
      constructor
      · simp [statusOfResult, hrc]
      · simp [statusOfResult, hrc]

theorem c8_error_taxonomy_witness :
    convert_xml_to_json (ConvEnv.mk true false (Except.ok "h1")
        (Except.error (PyExc.parseErr "boom")) (Except.ok ()) (Except.ok "h2"))
      = failureResult ("XML parse error: " ++ "boom") ∧
    convert_xml_to_json (ConvEnv.mk true true (Except.ok "h1")
        (Except.error (PyExc.otherErr "oops")) (Except.ok ()) (Except.ok "h2"))
      = failureResult ("Unexpected error: " ++ "oops") ∧
    (convert_xml_to_json (ConvEnv.mk false false (Except.ok "h1")
        (Except.ok []) (Except.ok ()) (Except.ok "h2"))).success = true ∧
    statusOfResult (convert_xml_to_json (ConvEnv.mk false false (Except.ok "h1")
        (Except.ok []) (Except.ok ()) (Except.ok "h2"))) = "warning" := by
  refine ⟨?_, ?_, ?_, ?_⟩
  · exact (c8_error_taxonomy (ConvEnv.mk true false (Except.ok "h1")
      (Except.error (PyExc.parseErr "boom")) (Except.ok ()) (Except.ok "h2"))).1 "boom" rfl
  · exact (c8_error_taxonomy (ConvEnv.mk true true (Except.ok "h1")
      (Except.error (PyExc.otherErr "oops")) (Except.ok ()) (Except.ok "h2"))).2.1 "oops" rfl
  · exact ((c8_error_taxonomy (ConvEnv.mk false false (Except.ok "h1")
      (Except.ok []) (Except.ok ()) (Except.ok "h2"))).2.2 rfl).1
  · exact (((c8_error_taxonomy (ConvEnv.mk false false (Except.ok "h1")
      (Except.ok []) (Except.ok ()) (Except.ok "h2"))).2.2 rfl).2.2.2 (by decide)).1

/-!  ### Claim C4: no key collisions

The no-collision argument works on the `List Char` representation of the
flattened keys: clean map keys contain no separator characters, two keys
coming from different siblings therefore differ in the segment before the
first separator, and two positional keys differ inside the bracket group
because decimal digit rendering is injective.
-/

theorem keysNodup_append {α : Type} {xs ys : List (String × α)} :
    keysNodup (xs ++ ys) = true ↔
      keysNodup xs = true ∧ keysNodup ys = true ∧
        ∀ p ∈ xs, ∀ q ∈ ys, p.1 ≠ q.1 := by
  induction xs with
  | nil => simp [keysNodup]
  | cons p xs ih =>
    rw [List.cons_append, keysNodup_cons, keysNodup_cons, ih]
    constructor
    · rintro ⟨hall, h1, h2, h3⟩
      refine ⟨⟨fun q hq => hall q (List.mem_append.mpr (Or.inl hq)), h1⟩, h2, ?_⟩
      intro a ha q hq
      rcases List.mem_cons.mp ha with rfl | ha'
      · exact fun hh => (hall q (List.mem_append.mpr (Or.inr hq))) hh.symm
      · exact h3 a ha' q hq
    · rintro ⟨⟨h0, h1⟩, h2, h3⟩
      refine ⟨?_, h1, h2, fun a ha q hq => h3 a (List.mem_cons_of_mem _ ha) q hq⟩
      intro q hq
      rcases List.mem_append.mp hq with hq' | hq'
      · exact h0 q hq'
      · exact fun hh => (h3 p (List.mem_cons_self _ _) q hq') hh.symm

theorem sep_append_inj {c : Char} : ∀ {a b s t : List Char},
    c ∉ a → c ∉ b → a ++ c :: s = b ++ c :: t → a = b ∧ s = t := by
  intro a
  induction a with
  | nil =>
    intro b s t ha hb h
    cases b with
    | nil => simpa using h
    | cons y ys =>
      rw [List.nil_append, List.cons_append] at h
      injection h with h1 h2
      exact absurd (by rw [h1]; exact List.mem_cons_self y ys) hb
  | cons x xs ih =>
    intro b s t ha hb h
    cases b with
    | nil =>
      rw [List.cons_append, List.nil_append] at h
      injection h with h1 h2
      exact absurd (List.mem_cons.mpr (Or.inl h1.symm)) ha
    | cons y ys =>
      rw [List.cons_append, List.cons_append] at h
      injection h with h1 h2
      subst h1
      obtain ⟨hab, hst⟩ := ih (fun hm => ha (List.mem_cons_of_mem _ hm))
        (fun hm => hb (List.mem_cons_of_mem _ hm)) h2
      exact ⟨by rw [hab], hst⟩

theorem clean_append_inj : ∀ {k1 k2 s1 s2 : List Char},
    (∀ c ∈ k1, c ≠ dotChar ∧ c ≠ lbk) → (∀ c ∈ k2, c ≠ dotChar ∧ c ≠ lbk) →
    SufOkL s1 → SufOkL s2 → k1 ++ s1 = k2 ++ s2 → k1 = k2 ∧ s1 = s2 := by
  intro k1
  induction k1 with
  | nil =>
    intro k2 s1 s2 h1 h2 hs1 hs2 heq
    cases k2 with
    | nil => simpa using heq
    | cons y ys =>
      exfalso
      rw [List.nil_append, List.cons_append] at heq
      rcases hs1 with rfl | hh
      · cases heq
      · rw [heq] at hh
        have hy := h2 y (List.mem_cons_self _ _)
        rcases hh with hh | hh
        · exact hy.1 (by injection hh)
        · exact hy.2 (by injection hh)
  | cons x xs ih =>
    intro k2 s1 s2 h1 h2 hs1 hs2 heq
    cases k2 with
    | nil =>
      exfalso
      rw [List.cons_append, List.nil_append] at heq
      rcases hs2 with rfl | hh
      · cases heq
      · rw [← heq] at hh
        have hx := h1 x (List.mem_cons_self _ _)
        rcases hh with hh | hh
        · exact hx.1 (by injection hh)
        · exact hx.2 (by injection hh)
    | cons y ys =>
      rw [List.cons_append, List.cons_append] at heq
      injection heq with h1' h2'
      subst h1'
      obtain ⟨hk, hs⟩ := ih (fun c hc => h1 c (List.mem_cons_of_mem _ hc))
        (fun c hc => h2 c (List.mem_cons_of_mem _ hc)) hs1 hs2 h2'
      exact ⟨by rw [hk], hs⟩

theorem char_toNat_digit {d : Nat} (h : d < 10) :
    (Char.ofNat (48 + d)).toNat = 48 + d := by
  interval_cases d <;> decide

theorem mem_natDigitsGo {fuel n : Nat} (h : n < fuel) :
    ∀ c ∈ natDigitsGo fuel n, ∃ d, d < 10 ∧ c = Char.ofNat (48 + d) := by
  induction fuel generalizing n with
  | zero => omega
  | succ fuel ih =>
    intro c hc
    by_cases h10 : n < 10
    · simp only [natDigitsGo, if_pos h10, List.mem_singleton] at hc
      exact ⟨n, h10, hc⟩
    · simp only [natDigitsGo, if_neg h10, List.mem_append, List.mem_singleton] at hc
      rcases hc with hc | hc
      · have hlt : n / 10 < fuel := by
          have := Nat.div_lt_self (by omega : 0 < n) (by omega : 1 < 10)
          omega
        exact ih hlt c hc
      · exact ⟨n % 10, Nat.mod_lt _ (by omega), hc⟩

theorem rbk_not_mem_natDigits (n : Nat) : rbk ∉ natDigits n := by
  intro hm
  obtain ⟨d, hd, hc⟩ := mem_natDigitsGo (Nat.lt_succ_self n) rbk hm
  have h1 : rbk.toNat = 48 + d := by rw [hc]; exact char_toNat_digit hd
  have h2 : rbk.toNat = 93 := by decide
  omega

theorem natVal_append_digit (l : List Char) (c : Char) :
    natVal (l ++ [c]) = 10 * natVal l + (c.toNat - 48) := by
  unfold natVal
  rw [List.foldl_append]
  rfl

theorem natVal_natDigitsGo {fuel n : Nat} (h : n < fuel) :
    natVal (natDigitsGo fuel n) = n := by
  induction fuel generalizing n with
  | zero => omega
  | succ fuel ih =>
    by_cases h10 : n < 10
    · simp only [natDigitsGo, if_pos h10]
      show natVal [Char.ofNat (48 + n)] = n
      unfold natVal
      simp only [List.foldl_cons, List.foldl_nil]
      rw [char_toNat_digit h10]
      omega
    · simp only [natDigitsGo, if_neg h10]
      rw [natVal_append_digit]
      have hlt : n / 10 < fuel := by
        have := Nat.div_lt_self (by omega : 0 < n) (by omega : 1 < 10)
        omega
      rw [ih hlt, char_toNat_digit (Nat.mod_lt _ (by omega))]
      omega

theorem natDigits_inj {a b : Nat} (h : natDigits a = natDigits b) : a = b := by
  have ha := natVal_natDigitsGo (Nat.lt_succ_self a)
  have hb := natVal_natDigitsGo (Nat.lt_succ_self b)
  unfold natDigits at h
  rw [← ha, ← hb, h]

theorem data_of_ne_empty {s : String} (h : s ≠ "") : ∃ c t, s.data = c :: t := by
  cases hd : s.data with
  | nil => exact absurd (String.ext (show s.data = "".data from hd)) h
  | cons c t => exact ⟨c, t, rfl⟩

theorem ne_empty_of_data_ne_nil {s : String} (h : s.data ≠ []) : s ≠ "" := by
  intro he
  subst he
  exact h rfl

theorem joinKey_data_of_ne {pk k : String} (h : pk ≠ "") :
    (joinKey pk k).data = pk.data ++ dotChar :: k.data := by
  unfold joinKey
  rw [if_neg h]
  show (pk ++ "." ++ k).data = pk.data ++ dotChar :: k.data
  rw [String.data_append, String.data_append, List.append_assoc]
  rfl

theorem joinKey_data_of_empty (k : String) : (joinKey "" k).data = k.data := by
  unfold joinKey
  rw [if_pos rfl]

theorem joinKey_ne_empty {pk k : String} (h : pk ≠ "" ∨ k ≠ "") :
    joinKey pk k ≠ "" := by
  by_cases hpk : pk = ""
  · rcases h with h | h
    · exact absurd hpk h
    · unfold joinKey
      rw [if_pos hpk]
      exact h
  · apply ne_empty_of_data_ne_nil
    rw [joinKey_data_of_ne hpk]
    obtain ⟨c, t, hd⟩ := data_of_ne_empty hpk
    rw [hd]
    simp

theorem idxKey_data (pk : String) (i : Nat) :
    (idxKey pk i).data = pk.data ++ lbk :: (natDigits i ++ [rbk]) := by
  unfold idxKey natStr
  rw [String.data_append, String.data_append, String.data_append, List.append_assoc,
    List.append_assoc]
  rfl

theorem idxKey_ne_empty (pk : String) (i : Nat) : idxKey pk i ≠ "" := by
  apply ne_empty_of_data_ne_nil
  rw [idxKey_data]
  simp

theorem attrPrefix_eq_joinKey (pk : String) : attrPrefix pk = joinKey pk "attributes" :=
  rfl

theorem attrKey_data (pk a : String) :
    (attrPrefix pk ++ "." ++ a).data =
      (joinKey pk "attributes").data ++ dotChar :: a.data := by
  rw [attrPrefix_eq_joinKey, String.data_append, String.data_append, List.append_assoc]
  rfl

theorem flattenPairsObj_cons (pk : String) (p : String × JValue)
    (rest : List (String × JValue)) :
    flattenPairsObj (p :: rest) pk = entryPairs pk p ++ flattenPairsObj rest pk := by
  obtain ⟨k, v⟩ := p
  unfold flattenPairsObj entryPairs
  cases v <;> cases k == "attributes" <;> simp <;>
    exact flattenPairsObj.eq_def rest pk

theorem sizeOf_snd_lt_obj {p : String × JValue} {entries : List (String × JValue)}
    (hp : p ∈ entries) : sizeOf p.2 < sizeOf (JValue.obj entries) := by
  have h1 := List.sizeOf_lt_of_mem hp
  obtain ⟨a, b⟩ := p
  simp only [JValue.obj.sizeOf_spec, Prod.mk.sizeOf_spec] at *
  omega

theorem sizeOf_elem_lt_arr {x : JValue} {elems : List JValue} (hx : x ∈ elems) :
    sizeOf x < sizeOf (JValue.arr elems) := by
  have h1 := List.sizeOf_lt_of_mem hx
  simp only [JValue.arr.sizeOf_spec] at *
  omega

theorem entryPairs_key_shape {p : String × JValue} {pk : String}
    (hrec : ∀ pk' : String, pk' ≠ "" →
      ∀ key ∈ (flattenPairs p.2 pk').map Prod.fst,
        ∃ s, key.data = pk'.data ++ s ∧ SufOkL s)
    (hne : pk ≠ "" ∨ p.1 ≠ "") :
    ∀ key ∈ (entryPairs pk p).map Prod.fst,
      ∃ s, key.data = (joinKey pk p.1).data ++ s ∧ SufOkL s := by
  obtain ⟨k, v⟩ := p
  intro key hkey
  have hjoin : joinKey pk k ≠ "" := joinKey_ne_empty hne
  cases v with
  | obj attrs =>
    cases hb : (k == "attributes") with
    | true =>
      have hk : k = "attributes" := by simpa using hb
      subst hk
      have hkey' : key ∈ (attrs.map
          (fun q => (attrPrefix pk ++ "." ++ q.1, q.2))).map Prod.fst := by
        simpa [entryPairs, hb] using hkey
      rw [List.map_map] at hkey'
      obtain ⟨q, hq, hqk⟩ := List.mem_map.mp hkey'
      refine ⟨dotChar :: q.1.data, ?_, Or.inr (Or.inl rfl)⟩
      rw [← hqk]
      exact attrKey_data pk q.1
    | false =>
      have hkey' : key ∈ (flattenPairs (JValue.obj attrs) (joinKey pk k)).map Prod.fst := by
        simpa [entryPairs, hb] using hkey
      exact hrec (joinKey pk k) hjoin key hkey'
  | null =>
    have hkey' : key ∈ (flattenPairs JValue.null (joinKey pk k)).map Prod.fst := by
      cases hb : (k == "attributes") <;> simpa [entryPairs, hb] using hkey
    exact hrec (joinKey pk k) hjoin key hkey'
  | str s0 =>
    have hkey' : key ∈ (flattenPairs (JValue.str s0) (joinKey pk k)).map Prod.fst := by
      cases hb : (k == "attributes") <;> simpa [entryPairs, hb] using hkey
    exact hrec (joinKey pk k) hjoin key hkey'
  | arr elems =>
    have hkey' : key ∈ (flattenPairs (JValue.arr elems) (joinKey pk k)).map Prod.fst := by
      cases hb : (k == "attributes") <;> simpa [entryPairs, hb] using hkey
    exact hrec (joinKey pk k) hjoin key hkey'

theorem flattenPairsArr_key_shape {elems : List JValue}
    (hrec : ∀ x ∈ elems, ∀ pk' : String, pk' ≠ "" →
      ∀ key ∈ (flattenPairs x pk').map Prod.fst,
        ∃ s, key.data = pk'.data ++ s ∧ SufOkL s) :
    ∀ (i : Nat) (pk : String), ∀ key ∈ (flattenPairsArr elems i pk).map Prod.fst,
      ∃ s, key.data = pk.data ++ s ∧ SufOkL s := by
  induction elems with
  | nil => intro i pk key hkey; cases hkey
  | cons x rest ih =>
    intro i pk key hkey
    have hsplit : flattenPairsArr (x :: rest) i pk =
        flattenPairs x (idxKey pk i) ++ flattenPairsArr rest (i + 1) pk := rfl
    rw [hsplit, List.map_append] at hkey
    rcases List.mem_append.mp hkey with hk | hk
    · obtain ⟨s', hs', hsuf⟩ := hrec x (List.mem_cons_self _ _) (idxKey pk i)
        (idxKey_ne_empty pk i) key hk
      refine ⟨lbk :: ((natDigits i ++ [rbk]) ++ s'), ?_, Or.inr (Or.inr rfl)⟩
      rw [hs', idxKey_data, List.append_assoc]
      rfl
    · exact ih (fun y hy => hrec y (List.mem_cons_of_mem _ hy)) (i + 1) pk key hk

theorem flattenPairsObj_key_shape {entries : List (String × JValue)}
    (hrec : ∀ p ∈ entries, ∀ pk' : String, pk' ≠ "" →
      ∀ key ∈ (flattenPairs p.2 pk').map Prod.fst,
        ∃ s, key.data = pk'.data ++ s ∧ SufOkL s) :
    ∀ pk : String, pk ≠ "" → ∀ key ∈ (flattenPairsObj entries pk).map Prod.fst,
      ∃ s, key.data = pk.data ++ s ∧ SufOkL s := by
  induction entries with
  | nil => intro pk hpk key hkey; cases hkey
  | cons p rest ih =>
    intro pk hpk key hkey
    rw [flattenPairsObj_cons, List.map_append] at hkey
    rcases List.mem_append.mp hkey with hk | hk
    · obtain ⟨s', hs', hsuf⟩ := entryPairs_key_shape
        (hrec p (List.mem_cons_self _ _)) (Or.inl hpk) key hk
      refine ⟨dotChar :: (p.1.data ++ s'), ?_, Or.inr (Or.inl rfl)⟩
      rw [hs', joinKey_data_of_ne hpk, List.append_assoc]
      rfl
    · exact ih (fun q hq => hrec q (List.mem_cons_of_mem _ hq)) pk hpk key hk

theorem flattenPairs_key_shape : ∀ v : JValue, ∀ pk : String, pk ≠ "" →
    ∀ key ∈ (flattenPairs v pk).map Prod.fst,
      ∃ s, key.data = pk.data ++ s ∧ SufOkL s := by
  refine measureInd sizeOf _ ?_
  intro v ihs
  cases v with
  | null =>
    intro pk hpk key hkey
    simp only [flattenPairs, if_neg hpk] at hkey
    rcases List.mem_singleton.mp (by simpa using hkey) with rfl
    exact ⟨[], by simp, Or.inl rfl⟩
  | str s0 =>
    intro pk hpk key hkey
    simp only [flattenPairs, if_neg hpk] at hkey
    rcases List.mem_singleton.mp (by simpa using hkey) with rfl
    exact ⟨[], by simp, Or.inl rfl⟩
  | obj entries =>
    intro pk hpk key hkey
    exact flattenPairsObj_key_shape
      (fun p hp => ihs p.2 (sizeOf_snd_lt_obj hp)) pk hpk key hkey
  | arr elems =>
    intro pk hpk key hkey
    simp only [flattenPairs, if_neg hpk] at hkey
    by_cases hall : elems.all isScalar = true
    · rw [if_pos hall] at hkey
      rcases List.mem_singleton.mp (by simpa using hkey) with rfl
      exact ⟨[], by simp, Or.inl rfl⟩
    · rw [if_neg hall] at hkey
      exact flattenPairsArr_key_shape
        (fun x hx => ihs x (sizeOf_elem_lt_arr hx)) 0 pk key hkey

theorem cleanKey_chars {k : String} (h : cleanKey k = true) :
    ∀ c ∈ k.data, c ≠ dotChar ∧ c ≠ lbk := by
  unfold cleanKey at h
  rw [Bool.and_eq_true] at h
  intro c hc
  have hh := List.all_eq_true.mp h.2 c hc
  rw [Bool.and_eq_true, Bool.and_eq_true] at hh
  refine ⟨?_, ?_⟩
  · simpa using hh.1.1
  · simpa using hh.1.2

theorem cleanKey_ne_empty {k : String} (h : cleanKey k = true) : k ≠ "" := by
  unfold cleanKey at h
  rw [Bool.and_eq_true] at h
  simpa using h.1

theorem validEntries_cons {k : String} {v : JValue} {rest : List (String × JValue)}
    (h : validEntries ((k, v) :: rest) = true) :
    cleanKey k = true ∧ entryValid (k, v) = true ∧ validEntries rest = true := by
  unfold validEntries at h
  rw [Bool.and_eq_true, Bool.and_eq_true] at h
  exact ⟨h.1.1, h.1.2, h.2⟩

theorem validEntries_chars {entries : List (String × JValue)}
    (h : validEntries entries = true) : ∀ q ∈ entries, cleanKey q.1 = true := by
  induction entries with
  | nil => intro q hq; cases hq
  | cons p rest ih =>
    intro q hq
    obtain ⟨k, v⟩ := p
    obtain ⟨hc, _, hrest⟩ := validEntries_cons h
    rcases List.mem_cons.mp hq with rfl | hq'
    · exact hc
    · exact ih hrest q hq'

theorem validElems_mem {elems : List JValue} (h : validElems elems = true) :
    ∀ x ∈ elems, validTree x = true := by
  induction elems with
  | nil => intro x hx; cases hx
  | cons y rest ih =>
    intro x hx
    have h' : (validTree y && validElems rest) = true := h
    rw [Bool.and_eq_true] at h'
    rcases List.mem_cons.mp hx with rfl | hx'
    · exact h'.1
    · exact ih h'.2 x hx'

theorem hasKey_false_iff_find_none {α : Type} {d : List (String × α)} {k : String} :
    hasKey d k = false ↔ d.find? (fun p => p.1 == k) = none := by
  rw [List.find?_eq_none, hasKey_eq_false_iff]
  constructor
  · intro h p hp
    simpa using h p hp
  · intro h p hp
    simpa using h p hp

theorem hasKey_dupdate_false {α : Type} {acc E : List (String × α)} {key : String}
    (h1 : hasKey acc key = false) (h2 : ∀ p ∈ E, p.1 ≠ key) :
    hasKey (dupdate acc E) key = false := by
  rw [hasKey_false_iff_find_none]
  have hd : dget (dupdate acc E) key = dget acc key := dget_dupdate_ne h2
  have hacc : acc.find? (fun p => p.1 == key) = none := hasKey_false_iff_find_none.mp h1
  cases hf : (dupdate acc E).find? (fun p => p.1 == key) with
  | none => rfl
  | some a =>
    exfalso
    unfold dget at hd
    rw [hf, hacc] at hd
    cases hd

theorem entry_keys_disjoint {pk k1 k2 : String}
    (hc1 : cleanKey k1 = true) (hc2 : cleanKey k2 = true) (hne : k1 ≠ k2)
    {key1 key2 : String} {s1 s2 : List Char}
    (h1 : key1.data = (joinKey pk k1).data ++ s1) (hs1 : SufOkL s1)
    (h2 : key2.data = (joinKey pk k2).data ++ s2) (hs2 : SufOkL s2) :
    key1 ≠ key2 := by
  intro heq
  have hd : (joinKey pk k1).data ++ s1 = (joinKey pk k2).data ++ s2 := by
    rw [← h1, ← h2, heq]
  have hclean1 := cleanKey_chars hc1
  have hclean2 := cleanKey_chars hc2
  by_cases hpk : pk = ""
  · subst hpk
    rw [joinKey_data_of_empty, joinKey_data_of_empty] at hd
    obtain ⟨hk, _⟩ := clean_append_inj hclean1 hclean2 hs1 hs2 hd
    exact hne (String.ext hk)
  · rw [joinKey_data_of_ne hpk, joinKey_data_of_ne hpk,
      List.append_assoc, List.append_assoc] at hd
    have hd' := List.append_cancel_left hd
    rw [List.cons_append, List.cons_append] at hd'
    injection hd' with _ hd''
    obtain ⟨hk, _⟩ := clean_append_inj hclean1 hclean2 hs1 hs2 hd''
    exact hne (String.ext hk)

theorem idx_keys_disjoint {pk : String} {i j : Nat} (hne : i ≠ j)
    {key1 key2 : String} {s1 s2 : List Char}
    (h1 : key1.data = (idxKey pk i).data ++ s1)
    (h2 : key2.data = (idxKey pk j).data ++ s2) :
    key1 ≠ key2 := by
  intro heq
  have hd : (idxKey pk i).data ++ s1 = (idxKey pk j).data ++ s2 := by
    rw [← h1, ← h2, heq]
  rw [idxKey_data, idxKey_data, List.append_assoc, List.append_assoc] at hd
  have hd' := List.append_cancel_left hd
  rw [List.cons_append, List.cons_append, List.append_assoc, List.append_assoc] at hd'
  injection hd' with _ hd''
  have hd3 : natDigits i ++ rbk :: s1 = natDigits j ++ rbk :: s2 := by
    simpa using hd''
  obtain ⟨hij, _⟩ := sep_append_inj (rbk_not_mem_natDigits i) (rbk_not_mem_natDigits j) hd3
  exact hne (natDigits_inj hij)

theorem keysNodup_map_prefix {α : Type} {attrs : List (String × α)} {pre : String}
    (h : keysNodup attrs = true) :
    keysNodup (attrs.map (fun q => (pre ++ q.1, q.2))) = true := by
  induction attrs with
  | nil => rfl
  | cons q rest ih =>
    obtain ⟨hq, hrest⟩ := keysNodup_cons.mp h
    rw [List.map_cons]
    refine keysNodup_cons.mpr ⟨?_, ih hrest⟩
    intro p hp
    obtain ⟨q', hq', hpq⟩ := List.mem_map.mp hp
    rw [← hpq]
    intro hkey
    exact hq q' hq' (string_append_cancel_left hkey)

theorem flattenPairsObj_key_origin {entries : List (String × JValue)} {pk : String}
    (hval : validEntries entries = true) :
    ∀ key ∈ (flattenPairsObj entries pk).map Prod.fst,
      ∃ q ∈ entries, ∃ s, key.data = (joinKey pk q.1).data ++ s ∧ SufOkL s := by
  induction entries with
  | nil => intro key hkey; cases hkey
  | cons p rest ih =>
    intro key hkey
    obtain ⟨k, v⟩ := p
    obtain ⟨hc, _, hrest⟩ := validEntries_cons hval
    rw [flattenPairsObj_cons, List.map_append] at hkey
    rcases List.mem_append.mp hkey with hk | hk
    · obtain ⟨s, hs, hsuf⟩ := entryPairs_key_shape (flattenPairs_key_shape v)
        (Or.inr (cleanKey_ne_empty hc)) key hk
      exact ⟨(k, v), List.mem_cons_self _ _, s, hs, hsuf⟩
    · obtain ⟨q, hq, s, hs, hsuf⟩ := ih hrest key hk
      exact ⟨q, List.mem_cons_of_mem _ hq, s, hs, hsuf⟩

theorem flattenPairsArr_key_origin {elems : List JValue} :
    ∀ (i : Nat) (pk : String), ∀ key ∈ (flattenPairsArr elems i pk).map Prod.fst,
      ∃ n, i ≤ n ∧ ∃ s, key.data = (idxKey pk n).data ++ s := by
  induction elems with
  | nil => intro i pk key hkey; cases hkey
  | cons x rest ih =>
    intro i pk key hkey
    have hsplit : flattenPairsArr (x :: rest) i pk =
        flattenPairs x (idxKey pk i) ++ flattenPairsArr rest (i + 1) pk := rfl
    rw [hsplit, List.map_append] at hkey
    rcases List.mem_append.mp hkey with hk | hk
    · obtain ⟨s, hs, _⟩ := flattenPairs_key_shape x (idxKey pk i)
        (idxKey_ne_empty pk i) key hk
      exact ⟨i, Nat.le_refl _, s, hs⟩
    · obtain ⟨n, hn, s, hs⟩ := ih (i + 1) pk key hk
      exact ⟨n, by omega, s, hs⟩

theorem flattenObj_cons_attr (pk k : String)
    (attrs rest acc : List (String × JValue)) (hb : (k == "attributes") = true) :
    flattenObj ((k, JValue.obj attrs) :: rest) pk acc =
      flattenObj rest pk
        (dupdate acc (attrs.map (fun q => (attrPrefix pk ++ "." ++ q.1, q.2)))) :=
  flattenObj.eq_2 pk acc k rest attrs hb

theorem flattenObj_cons_plain (pk k : String) (v : JValue)
    (rest acc : List (String × JValue))
    (hno : ∀ attrs : List (String × JValue),
      v = JValue.obj attrs → (k == "attributes") = true → False) :
    flattenObj ((k, v) :: rest) pk acc =
      flattenObj rest pk (dupdate acc (flatten_dict v (joinKey pk k))) :=
  flattenObj.eq_3 pk acc k rest v hno

theorem flattenObj_cons_entry {pk k : String} {v : JValue}
    (hrec : validTree v = true → ∀ pk' : String,
      keysNodup (flattenPairs v pk') = true ∧ flatten_dict v pk' = flattenPairs v pk')
    (hev : entryValid (k, v) = true)
    (rest acc : List (String × JValue)) :
    flattenObj ((k, v) :: rest) pk acc =
      flattenObj rest pk (dupdate acc (entryPairs pk (k, v))) := by
  cases v with
  | obj attrs =>
    cases hb : (k == "attributes") with
    | true =>
      have hE : entryPairs pk (k, JValue.obj attrs) =
          attrs.map (fun q => (attrPrefix pk ++ "." ++ q.1, q.2)) := by
        unfold entryPairs
        rw [hb]
      rw [hE]
      exact flattenObj_cons_attr pk k attrs rest acc hb
    | false =>
      have hev' : validTree (JValue.obj attrs) = true := by
        unfold entryValid at hev
        rw [hb] at hev
        exact hev
      have hE : entryPairs pk (k, JValue.obj attrs) =
          flattenPairs (JValue.obj attrs) (joinKey pk k) := by
        unfold entryPairs
        rw [hb]
      rw [hE, ← (hrec hev' (joinKey pk k)).2]
      exact flattenObj_cons_plain pk k (JValue.obj attrs) rest acc
        (fun a ha hbt => Bool.false_ne_true (hb ▸ hbt))
  | null =>
    have hev' : validTree JValue.null = true := rfl
    have hE : entryPairs pk (k, JValue.null) =
        flattenPairs JValue.null (joinKey pk k) := by
      cases hb : (k == "attributes") <;> simp only [entryPairs, hb]
    rw [hE, ← (hrec hev' (joinKey pk k)).2]
    exact flattenObj_cons_plain pk k JValue.null rest acc
      (fun a ha _ => JValue.noConfusion ha)
  | str s0 =>
    have hev' : validTree (JValue.str s0) = true := rfl
    have hE : entryPairs pk (k, JValue.str s0) =
        flattenPairs (JValue.str s0) (joinKey pk k) := by
      cases hb : (k == "attributes") <;> simp only [entryPairs, hb]
    rw [hE, ← (hrec hev' (joinKey pk k)).2]
    exact flattenObj_cons_plain pk k (JValue.str s0) rest acc
      (fun a ha _ => JValue.noConfusion ha)
  | arr elems =>
    have hev' : validTree (JValue.arr elems) = true := by
      unfold entryValid at hev
      cases hb : (k == "attributes") <;> rw [hb] at hev <;> exact hev
    have hE : entryPairs pk (k, JValue.arr elems) =
        flattenPairs (JValue.arr elems) (joinKey pk k) := by
      cases hb : (k == "attributes") <;> simp only [entryPairs, hb]
    rw [hE, ← (hrec hev' (joinKey pk k)).2]
    exact flattenObj_cons_plain pk k (JValue.arr elems) rest acc
      (fun a ha _ => JValue.noConfusion ha)

theorem entryPairs_nodup {pk k : String} {v : JValue}
    (hrec : validTree v = true → ∀ pk' : String,
      keysNodup (flattenPairs v pk') = true ∧ flatten_dict v pk' = flattenPairs v pk')
    (hev : entryValid (k, v) = true) :
    keysNodup (entryPairs pk (k, v)) = true := by
  cases v with
  | obj attrs =>
    cases hb : (k == "attributes") with
    | true =>
      have hE : entryPairs pk (k, JValue.obj attrs) =
          attrs.map (fun q => (attrPrefix pk ++ "." ++ q.1, q.2)) := by
        unfold entryPairs
        rw [hb]
      have hev' : keysNodup attrs = true := by
        unfold entryValid at hev
        rw [hb] at hev
        exact hev
      rw [hE]
      exact keysNodup_map_prefix hev'
    | false =>
      have hev' : validTree (JValue.obj attrs) = true := by
        unfold entryValid at hev
        rw [hb] at hev
        exact hev
      have hE : entryPairs pk (k, JValue.obj attrs) =
          flattenPairs (JValue.obj attrs) (joinKey pk k) := by
        unfold entryPairs
        rw [hb]
      rw [hE]
      exact (hrec hev' (joinKey pk k)).1
  | null =>
    have hE : entryPairs pk (k, JValue.null) =
        flattenPairs JValue.null (joinKey pk k) := by
      cases hb : (k == "attributes") <;> simp only [entryPairs, hb]
    rw [hE]
    exact (hrec rfl (joinKey pk k)).1
  | str s0 =>
    have hE : entryPairs pk (k, JValue.str s0) =
        flattenPairs (JValue.str s0) (joinKey pk k) := by
      cases hb : (k == "attributes") <;> simp only [entryPairs, hb]
    rw [hE]
    exact (hrec rfl (joinKey pk k)).1
  | arr elems =>
    have hev' : validTree (JValue.arr elems) = true := by
      unfold entryValid at hev
      cases hb : (k == "attributes") <;> rw [hb] at hev <;> exact hev
    have hE : entryPairs pk (k, JValue.arr elems) =
        flattenPairs (JValue.arr elems) (joinKey pk k) := by
      cases hb : (k == "attributes") <;> simp only [entryPairs, hb]
    rw [hE]
    exact (hrec hev' (joinKey pk k)).1

theorem mainObj {entries : List (String × JValue)} :
    ∀ (hrec : ∀ p ∈ entries, validTree p.2 = true → ∀ pk' : String,
        keysNodup (flattenPairs p.2 pk') = true ∧
          flatten_dict p.2 pk' = flattenPairs p.2 pk')
      (pk : String), validEntries entries = true → keysNodup entries = true →
      keysNodup (flattenPairsObj entries pk) = true ∧
      ∀ acc : List (String × JValue),
        (∀ key ∈ (flattenPairsObj entries pk).map Prod.fst, hasKey acc key = false) →
        flattenObj entries pk acc = acc ++ flattenPairsObj entries pk := by
  induction entries with
  | nil =>
    intro hrec pk hval hnd
    refine ⟨rfl, fun acc _ => by simp [flattenObj, flattenPairsObj]⟩
  | cons p rest ih =>
    intro hrec pk hval hnd
    obtain ⟨k, v⟩ := p
    obtain ⟨hc, hev, hval'⟩ := validEntries_cons hval
    obtain ⟨hkne, hnd'⟩ := keysNodup_cons.mp hnd
    have hrecHead := hrec (k, v) (List.mem_cons_self _ _)
    have hrec' := fun q hq => hrec q (List.mem_cons_of_mem _ hq)
    obtain ⟨ihnodup, ihfold⟩ := ih hrec' pk hval' hnd'
    have hE_nodup := @entryPairs_nodup pk k v hrecHead hev
    have hE_shape := @entryPairs_key_shape (k, v) pk (flattenPairs_key_shape v)
      (Or.inr (cleanKey_ne_empty hc))
    have hdisj : ∀ p1 ∈ entryPairs pk (k, v), ∀ p2 ∈ flattenPairsObj rest pk,
        p1.1 ≠ p2.1 := by
      intro p1 hp1 p2 hp2
      obtain ⟨s1, hs1, hsuf1⟩ := hE_shape p1.1 (List.mem_map_of_mem Prod.fst hp1)
      obtain ⟨q, hq, s2, hs2, hsuf2⟩ := flattenPairsObj_key_origin hval' p2.1
        (List.mem_map_of_mem Prod.fst hp2)
      have hqc : cleanKey q.1 = true := validEntries_chars hval' q hq
      have hqk : q.1 ≠ k := hkne q hq
      exact entry_keys_disjoint hc hqc (fun hh => hqk hh.symm) hs1 hsuf1 hs2 hsuf2
    constructor
    · rw [flattenPairsObj_cons]
      exact keysNodup_append.mpr ⟨hE_nodup, ihnodup, hdisj⟩
    · intro acc hfresh
      have hfreshE : ∀ key ∈ (entryPairs pk (k, v)).map Prod.fst,
          hasKey acc key = false := by
        intro key hkey
        refine hfresh key ?_
        rw [flattenPairsObj_cons, List.map_append]
        exact List.mem_append.mpr (Or.inl hkey)
      have hfreshR : ∀ key ∈ (flattenPairsObj rest pk).map Prod.fst,
          hasKey (dupdate acc (entryPairs pk (k, v))) key = false := by
        intro key hkey
        obtain ⟨p2, hp2, hp2k⟩ := List.mem_map.mp hkey
        refine hasKey_dupdate_false ?_ ?_
        · refine hfresh key ?_
          rw [flattenPairsObj_cons, List.map_append]
          exact List.mem_append.mpr (Or.inr hkey)
        · intro p1 hp1
          rw [← hp2k]
          exact hdisj p1 hp1 p2 hp2
      have hupd : dupdate acc (entryPairs pk (k, v)) = acc ++ entryPairs pk (k, v) := by
        refine dupdate_eq_append ?_ hE_nodup
        intro q hq
        exact hfreshE q.1 (List.mem_map_of_mem Prod.fst hq)
      rw [flattenObj_cons_entry hrecHead hev rest acc,
        ihfold (dupdate acc (entryPairs pk (k, v))) hfreshR, hupd,
        flattenPairsObj_cons, List.append_assoc]

theorem mainArr {elems : List JValue} :
    ∀ (hrec : ∀ x ∈ elems, validTree x = true → ∀ pk' : String,
        keysNodup (flattenPairs x pk') = true ∧
          flatten_dict x pk' = flattenPairs x pk')
      (i : Nat) (pk : String), validElems elems = true →
      keysNodup (flattenPairsArr elems i pk) = true ∧
      ∀ acc : List (String × JValue),
        (∀ key ∈ (flattenPairsArr elems i pk).map Prod.fst, hasKey acc key = false) →
        flattenArr elems i pk acc = acc ++ flattenPairsArr elems i pk := by
  induction elems with
  | nil =>
    intro hrec i pk hval
    exact ⟨rfl, fun acc _ => by simp [flattenArr, flattenPairsArr]⟩
  | cons x rest ih =>
    intro hrec i pk hval
    have hvx : validTree x = true := validElems_mem hval x (List.mem_cons_self _ _)
    have hval' : validElems rest = true := by
      have h' : (validTree x && validElems rest) = true := hval
      rw [Bool.and_eq_true] at h'
      exact h'.2
    have hrecHead := hrec x (List.mem_cons_self _ _) hvx
    have hrec' := fun y hy => hrec y (List.mem_cons_of_mem _ hy)
    obtain ⟨ihnodup, ihfold⟩ := ih hrec' (i + 1) pk hval'
    have hsplit : flattenPairsArr (x :: rest) i pk =
        flattenPairs x (idxKey pk i) ++ flattenPairsArr rest (i + 1) pk := rfl
    have hE_nodup := (hrecHead (idxKey pk i)).1
    have hdisj : ∀ p1 ∈ flattenPairs x (idxKey pk i),
        ∀ p2 ∈ flattenPairsArr rest (i + 1) pk, p1.1 ≠ p2.1 := by
      intro p1 hp1 p2 hp2
      obtain ⟨s1, hs1, _⟩ := flattenPairs_key_shape x (idxKey pk i)
        (idxKey_ne_empty pk i) p1.1 (List.mem_map_of_mem Prod.fst hp1)
      obtain ⟨n, hn, s2, hs2⟩ := flattenPairsArr_key_origin (i + 1) pk p2.1
        (List.mem_map_of_mem Prod.fst hp2)
      exact idx_keys_disjoint (by omega) hs1 hs2
    constructor
    · rw [hsplit]
      exact keysNodup_append.mpr ⟨hE_nodup, ihnodup, hdisj⟩
    · intro acc hfresh
      have hfreshE : ∀ key ∈ (flattenPairs x (idxKey pk i)).map Prod.fst,
          hasKey acc key = false := by
        intro key hkey
        refine hfresh key ?_
        rw [hsplit, List.map_append]
        exact List.mem_append.mpr (Or.inl hkey)
      have hfreshR : ∀ key ∈ (flattenPairsArr rest (i + 1) pk).map Prod.fst,
          hasKey (dupdate acc (flattenPairs x (idxKey pk i))) key = false := by
        intro key hkey
        obtain ⟨p2, hp2, hp2k⟩ := List.mem_map.mp hkey
        refine hasKey_dupdate_false ?_ ?_
        · refine hfresh key ?_
          rw [hsplit, List.map_append]
          exact List.mem_append.mpr (Or.inr hkey)
        · intro p1 hp1
          rw [← hp2k]
          exact hdisj p1 hp1 p2 hp2
      have hupd : dupdate acc (flattenPairs x (idxKey pk i)) =
          acc ++ flattenPairs x (idxKey pk i) := by
        refine dupdate_eq_append ?_ hE_nodup
        intro q hq
        exact hfreshE q.1 (List.mem_map_of_mem Prod.fst hq)
      have hstep : flattenArr (x :: rest) i pk acc =
          flattenArr rest (i + 1) pk (dupdate acc (flatten_dict x (idxKey pk i))) := rfl
      rw [hstep, (hrecHead (idxKey pk i)).2,
        ihfold (dupdate acc (flattenPairs x (idxKey pk i))) hfreshR, hupd,
        hsplit, List.append_assoc]

/-- Shared bridge: on a well-formed tree (duplicate-free, separator-free
map keys) the flattener never overwrites an entry — it equals its pure
emission sequence, whose keys are pairwise distinct. -/
theorem flatten_no_collision : ∀ v : JValue, validTree v = true → ∀ pk : String,
    keysNodup (flattenPairs v pk) = true ∧ flatten_dict v pk = flattenPairs v pk := by
  refine measureInd sizeOf _ ?_
  intro v ihs hv pk
  cases v with
  | null =>
    by_cases hpk : pk = "" <;> simp [flattenPairs, flatten_dict, keysNodup, hpk]
  | str s0 =>
    by_cases hpk : pk = "" <;> simp [flattenPairs, flatten_dict, keysNodup, hpk]
  | obj entries =>
    have hparts : keysNodup entries = true ∧ validEntries entries = true := by
      have h' : (keysNodup entries && validEntries entries) = true := hv
      rw [Bool.and_eq_true] at h'
      exact h'
    have h := mainObj (fun p hp hval pk' => ihs p.2 (sizeOf_snd_lt_obj hp) hval pk')
      pk hparts.2 hparts.1
    refine ⟨h.1, ?_⟩
    show flattenObj entries pk [] = flattenPairsObj entries pk
    rw [h.2 [] (fun key _ => by simp [hasKey])]
    rfl
  | arr elems =>
    have hval : validElems elems = true := hv
    have h := mainArr (fun x hx hvx pk' => ihs x (sizeOf_elem_lt_arr hx) hvx pk')
      0 pk hval
    by_cases hpk : pk = ""
    · subst hpk
      refine ⟨h.1, ?_⟩
      show flattenArr elems 0 "" [] = flattenPairsArr elems 0 ""
      rw [h.2 [] (fun key _ => by simp [hasKey])]
      rfl
    · by_cases hall : elems.all isScalar = true
      · constructor
        · show keysNodup (if pk = "" then flattenPairsArr elems 0 pk
            else if elems.all isScalar = true then [(pk, JValue.arr elems)]
            else flattenPairsArr elems 0 pk) = true
          rw [if_neg hpk, if_pos hall]
          rfl
        · show (if pk = "" then flattenArr elems 0 pk []
            else if elems.all isScalar = true then [(pk, JValue.arr elems)]
            else flattenArr elems 0 pk []) =
            (if pk = "" then flattenPairsArr elems 0 pk
            else if elems.all isScalar = true then [(pk, JValue.arr elems)]
            else flattenPairsArr elems 0 pk)
          rw [if_neg hpk, if_neg hpk, if_pos hall, if_pos hall]
      · constructor
        · show keysNodup (if pk = "" then flattenPairsArr elems 0 pk
            else if elems.all isScalar = true then [(pk, JValue.arr elems)]
            else flattenPairsArr elems 0 pk) = true
          rw [if_neg hpk, if_neg hall]
          exact h.1
        · show (if pk = "" then flattenArr elems 0 pk []
            else if elems.all isScalar = true then [(pk, JValue.arr elems)]
            else flattenArr elems 0 pk []) =
            (if pk = "" then flattenPairsArr elems 0 pk
            else if elems.all isScalar = true then [(pk, JValue.arr elems)]
            else flattenPairsArr elems 0 pk)
          rw [if_neg hpk, if_neg hpk, if_neg hall, if_neg hall]
          rw [h.2 [] (fun key _ => by simp [hasKey])]
          rfl

/-- Claim C4 as stated is false: in the tree
`{"a": {"b": "1"}, "a.b": "2"}` — a shape XML can produce, since local
names may contain dots — the two distinct leaf paths `a → b` and `a.b`
both flatten to the key `a.b`, and the flattened record keeps only one of
the two leaves. -/
theorem c4_collision_counterexample :
    (flattenPairs vDot "").length = 2 ∧
    ¬ ((flattenPairs vDot "").map Prod.fst).Nodup ∧
    (flatten_dict vDot "").length = 1 := by
  refine ⟨by decide, ?_, by decide⟩
  intro h
  have : ((flattenPairs vDot "").map Prod.fst).Nodup → False := by decide
  exact this h

/-- Claim C4, amended: flattening is deterministic, and for every tree
whose map keys (attribute names included) are non-empty, free of the
separator characters dot and brackets, and duplicate-free among siblings,
no two distinct leaf paths produce the same flattened key: the flattened
record equals the emission sequence with one entry per leaf, whose keys
are pairwise distinct. -/
theorem c4_no_collision_amended (v : JValue) (hv : validTree v = true) :
    keysNodup (flattenPairs v "") = true ∧ flatten_dict v "" = flattenPairs v "" :=
  flatten_no_collision v hv ""

theorem c4_no_collision_amended_witness :
    validTree (JValue.obj [("a", JValue.obj [("b", JValue.str "1")]),
      ("c", JValue.arr [JValue.str "x", JValue.obj [("d", JValue.str "2")]]),
      ("attributes", JValue.obj [("id", JValue.str "42")])]) = true ∧
    keysNodup (flattenPairs (JValue.obj [("a", JValue.obj [("b", JValue.str "1")]),
      ("c", JValue.arr [JValue.str "x", JValue.obj [("d", JValue.str "2")]]),
      ("attributes", JValue.obj [("id", JValue.str "42")])]) "") = true ∧
    flatten_dict (JValue.obj [("a", JValue.obj [("b", JValue.str "1")]),
      ("c", JValue.arr [JValue.str "x", JValue.obj [("d", JValue.str "2")]]),
      ("attributes", JValue.obj [("id", JValue.str "42")])]) "" =
      flattenPairs (JValue.obj [("a", JValue.obj [("b", JValue.str "1")]),
      ("c", JValue.arr [JValue.str "x", JValue.obj [("d", JValue.str "2")]]),
      ("attributes", JValue.obj [("id", JValue.str "42")])]) "" := by
  refine ⟨by decide, ?_, ?_⟩
  · exact (c4_no_collision_amended _ (by decide)).1
  · exact (c4_no_collision_amended _ (by decide)).2

end PharmaForm
